import Mathlib

/-!
# Verification of the memory-rag core (`tools/memory_rag/core`)

A shallow embedding, in Lean 4, of the parts of the `memory_rag` retrieval
engine that its specification talks about:

* `core/chunker.py`   — size-tier categorization, section extraction,
  word-window chunking, chunk creation and citations;
* `core/embedder.py`  — the content-hash-keyed embedding cache;
* `core/searcher.py`  — collection precondition, hybrid score fusion,
  keyword search, intelligence boosting;
* `core/indexer.py`   — change detection and incremental indexing;
* `core/intelligence.py` — the priority multiplier and the overall boost.

Python strings are modelled as `List Char` (Python `str` is a sequence of
code points).  Each Python `str` method used by the code has a Lean
counterpart defined below (`splitLinesC` for `split('\n')`, `wordsC` for
`split()`, `stripC` for `strip()`, `lowerC` for `lower()`, `pyReplace` for
`replace`, `joinC` for `sep.join`).  Python floats are modelled as `ℚ`:
every claim settled here is an order/equality property of the algorithms,
not of IEEE rounding.  Python dicts are modelled as insertion-ordered
association lists.  External collaborators (the sentence-transformer
model, ChromaDB, md5) are modelled as function parameters.
-/

set_option autoImplicit false

/-- Python `str` is a sequence of code points. -/
abbrev Str := List Char

/-- The ASCII whitespace characters recognised by Python's `str.split()` /
`str.strip()` (the full Python definition also covers rarer Unicode
whitespace; the documents handled by the code are ASCII-structured). -/
def isPyWs (c : Char) : Bool :=
  c = ' ' || c = '\t' || c = '\n' || c = '\r' || c = '\x0b' || c = '\x0c'

/-- Python `content.split('\n')`: split at every newline, keeping empty
pieces; the result is always non-empty. -/
def splitLinesC : Str → List Str
  | [] => [[]]
  | c :: rest =>
    if c = '\n' then [] :: splitLinesC rest
    else
      match splitLinesC rest with
      | [] => [[c]]
      | l :: ls => (c :: l) :: ls

/-- Python `text.split()` (no separator): split on runs of whitespace,
dropping empty pieces. -/
def wordsC : Str → List Str
  | [] => []
  | c :: rest =>
    if isPyWs c then wordsC rest
    else (c :: rest.takeWhile (fun d => ¬ isPyWs d)) ::
      wordsC (rest.dropWhile (fun d => ¬ isPyWs d))
termination_by s => s.length
decreasing_by
  · simp only [List.length_cons]; omega
  · have h := (List.dropWhile_sublist (l := rest) (p := fun d => ¬ isPyWs d)).length_le
    simp only [List.length_cons]; omega

/-- Python `text.strip()`: remove leading and trailing whitespace. -/
def stripC (s : Str) : Str :=
  ((s.dropWhile isPyWs).reverse.dropWhile isPyWs).reverse

/-- Python `sep.join(xs)`. -/
def joinC (sep : Str) : List Str → Str
  | [] => []
  | [x] => x
  | x :: xs => x ++ sep ++ joinC sep xs

/-- Python `s.lower()` (ASCII case mapping, which is all the code's
configured patterns use). -/
def lowerC (s : Str) : Str := s.map Char.toLower

/-- The recursion behind Python `s.replace(old, new)` for a non-empty
pattern `old`: scan left to right, replacing non-overlapping occurrences. -/
def replaceC (old new : Str) : Str → Str
  | [] => []
  | c :: rest =>
    if old.isPrefixOf (c :: rest) ∧ old ≠ [] then
      new ++ replaceC old new ((c :: rest).drop old.length)
    else c :: replaceC old new rest
termination_by s => s.length
decreasing_by
  · rename_i h
    have hlen : 1 ≤ old.length := by
      cases old with
      | nil => exact absurd rfl h.2
      | cons _ _ => simp
    have _h2 := (List.drop_sublist old.length (c :: rest)).length_le
    have h3 : (c :: rest).length = rest.length + 1 := by simp
    by_contra hc
    push_neg at hc
    rw [List.length_drop] at hc
    omega
  · simp only [List.length_cons]; omega

/-- Python `s.replace(old, new)`.  An empty `old` inserts `new` before,
between, and after every character. -/
def pyReplace (s old new : Str) : Str :=
  if old = [] then new ++ s.flatMap (fun c => c :: new)
  else replaceC old new s

/-- Python `needle in haystack` for strings (substring test). -/
def substrC (needle haystack : Str) : Bool :=
  decide (needle <:+: haystack)

/-- Decimal rendering of a natural number (used for `(Part i/n)` labels
produced by f-strings in the chunker). -/
def natToChars (n : Nat) : Str := Nat.toDigits 10 n

/-! ## `core/chunker.py` — data model -/

/-- The `🔴`/`🟡`/`🟢` size-category literals of `chunker.py`
(`red` = 🔴 large, `yellow` = 🟡 medium, `green` = 🟢 small). -/
inductive SizeCat
  | red
  | yellow
  | green
deriving DecidableEq, Repr

/-- The configuration consumed by `MemoryBankChunker.__init__`.  The
compiled `section_regex` is modelled by the line predicate `isHeader`
(Python calls `section_regex.match(line)` on single lines only), and the
truncated md5 used by `_create_chunk` by the opaque `idHash`.  Token-based
chunking (`use_token_based`) is modelled in its default state: disabled,
so `_chunk_text` always falls back to `_chunk_text_by_words`. -/
structure ChunkerConfig where
  chunk_size : Nat
  chunk_overlap : Nat
  isHeader : Str → Bool
  small_threshold : Nat
  medium_threshold : Nat
  executive_summary_lines : Nat
  section_preview_lines : Nat
  idHash : Str → Str

/-- `chunker.Document` (the `metadata` bag only ever holds
`{'file_path': file_path}`, already present as `file_path`). -/
structure Document where
  file_path : Str
  content : Str
  size_category : SizeCat
  line_count : Nat

/-- The metadata dict built by `MemoryBankChunker._create_chunk`. -/
structure ChunkMeta where
  size_category : SizeCat
  line_count : Nat
  file_path : Str
deriving DecidableEq, Repr

/-- `chunker.Chunk`. -/
structure Chunk where
  chunk_id : Str
  document_path : Str
  section_header : Str
  content : Str
  navigation_path : Str
  start_line : Nat
  end_line : Nat
  metadata : ChunkMeta
deriving DecidableEq, Repr

/-- `Chunk.generate_citation`:
`f"{self.document_path}#{self.section_header.lower().replace(' ', '-').replace('#', '')}"`. -/
def Chunk.generate_citation (c : Chunk) : Str :=
  c.document_path ++ '#' ::
    pyReplace (pyReplace (lowerC c.section_header) [' '] ['-']) ['#'] []

/-- `MemoryBankChunker.categorize_document`: line count from
`content.split('\n')`, tier from the two thresholds. -/
def categorize_document (cfg : ChunkerConfig) (content : Str) : SizeCat × Nat :=
  let lines := splitLinesC content
  let line_count := lines.length
  if line_count > cfg.medium_threshold then (.red, line_count)
  else if line_count > cfg.small_threshold then (.yellow, line_count)
  else (.green, line_count)

/-- One section dict produced by `MemoryBankChunker._extract_sections`.
(`end_line` is `i - 1` in Python, which is never negative there because a
previous section always starts strictly before line `i`; `Nat`
subtraction agrees.) -/
structure DocSection where
  header : Str
  content : Str
  start_line : Nat
  end_line : Nat
deriving DecidableEq, Repr

/-- The loop state of `_extract_sections`: sections found so far, the
current `{'header': …, 'start_line': …}` dict (if any), and
`current_content`. -/
abbrev ExtractState := List DocSection × Option (Str × Nat) × List Str

/-- One iteration of the `for i, line in enumerate(lines)` loop of
`_extract_sections`. -/
def extract_step (cfg : ChunkerConfig) (st : ExtractState) (il : Nat × Str) :
    ExtractState :=
  let (sections, cur, current_content) := st
  if cfg.isHeader il.2 then
    let sections' :=
      match cur with
      | some (h, sl) => sections ++ [⟨h, joinC ['\n'] current_content, sl, il.1 - 1⟩]
      | none => sections
    (sections', some (stripC il.2, il.1), [il.2])
  else
    match cur with
    | some _ => (sections, cur, current_content ++ [il.2])
    | none => (sections, cur, current_content)

/-- `MemoryBankChunker._extract_sections`. -/
def extract_sections (cfg : ChunkerConfig) (content : Str) : List DocSection :=
  let lines := splitLinesC content
  let (sections, cur, current_content) :=
    lines.enum.foldl (extract_step cfg) ([], none, [])
  match cur with
  | some (h, sl) =>
      sections ++ [⟨h, joinC ['\n'] current_content, sl, lines.length - 1⟩]
  | none => sections

/-- The `while start < len(words)` loop of `_chunk_text_by_words`,
with explicit fuel: `none` models a loop that has not finished within
`fuel` iterations (for `overlap ≥ max_chunk_size` the Python loop never
terminates). -/
def chunkWindowLoop (words : List Str) (max_chunk_size overlap start : Nat) :
    Nat → Option (List Str)
  | 0 => none
  | fuel + 1 =>
    if start < words.length then
      let e := min (start + max_chunk_size) words.length
      let chunk := joinC [' '] ((words.drop start).take (e - start))
      match chunkWindowLoop words max_chunk_size overlap
          (if e < words.length then e - overlap else e) fuel with
      | none => none
      | some rest => some (chunk :: rest)
    else some []

/-- `MemoryBankChunker._chunk_text_by_words`. -/
def chunk_text_by_words (text : Str) (max_chunk_size overlap : Nat) :
    Option (List Str) :=
  if stripC text = [] then some []
  else
    let words := wordsC text
    if words.length ≤ max_chunk_size then some [text]
    else chunkWindowLoop words max_chunk_size overlap 0 (words.length + 1)

/-- `MemoryBankChunker._chunk_text` with token-based chunking in its
default disabled state (no tokenizer): the word-based fallback. -/
def chunk_text (cfg : ChunkerConfig) (text : Str) : Option (List Str) :=
  chunk_text_by_words text cfg.chunk_size cfg.chunk_overlap

/-- `MemoryBankChunker._create_chunk`.  `chunk_id` is
`md5(f"{file_path}:{section_header}:{start_line}")[:12]`, modelled by
`cfg.idHash` applied to the same formatted string; both branches of
`_build_navigation_path` produce `f"{file_path} → {section_header}"`. -/
def create_chunk (cfg : ChunkerConfig) (doc : Document) (content : Str)
    (section_header : Str) (start_line end_line : Nat) : Chunk :=
  { chunk_id := cfg.idHash
      (doc.file_path ++ ':' :: section_header ++ ':' :: natToChars start_line)
    document_path := doc.file_path
    section_header := section_header
    content := content
    navigation_path := doc.file_path ++ (' ' :: '→' :: ' ' :: section_header)
    start_line := start_line
    end_line := end_line
    metadata := ⟨doc.size_category, doc.line_count, doc.file_path⟩ }

/-- The chunks one section contributes in `_chunk_small_file` /
`_chunk_medium_file`: window the section content, then one chunk per
window, with a `(Part i/n)` suffix on the header when it was split. -/
def section_chunk_list (cfg : ChunkerConfig) (doc : Document) (sec : DocSection)
    (section_chunks : List Str) : List Chunk :=
  section_chunks.enum.map (fun ic =>
    let chunk_header :=
      if section_chunks.length > 1 then
        sec.header ++ " (Part ".toList ++ natToChars (ic.1 + 1) ++
          '/' :: natToChars section_chunks.length ++ [')']
      else sec.header
    create_chunk cfg doc ic.2 chunk_header sec.start_line sec.end_line)

/-- The `for section in sections` loop shared by `_chunk_small_file` and
`_chunk_medium_file`: window each section and append its chunks
(`none` propagates a diverging window loop, see `chunkWindowLoop`). -/
def sectionLoop (cfg : ChunkerConfig) (doc : Document) :
    List DocSection → Option (List Chunk)
  | [] => some []
  | sec :: rest =>
    match chunk_text cfg sec.content with
    | none => none
    | some section_chunks =>
      match sectionLoop cfg doc rest with
      | none => none
      | some more => some (section_chunk_list cfg doc sec section_chunks ++ more)

/-- `MemoryBankChunker._chunk_small_file`. -/
def chunk_small_file (cfg : ChunkerConfig) (doc : Document) :
    Option (List Chunk) :=
  let sections := extract_sections cfg doc.content
  if sections.isEmpty then
    match chunk_text cfg doc.content with
    | none => none
    | some text_chunks =>
      some (text_chunks.enum.map (fun ic =>
        create_chunk cfg doc ic.2
          ( "Content Part ".toList ++ natToChars (ic.1 + 1))
          0 doc.line_count))
  else
    sectionLoop cfg doc sections

/-- `MemoryBankChunker._chunk_medium_file` (same per-section windowing as
the sectioned branch of `_chunk_small_file`). -/
def chunk_medium_file (cfg : ChunkerConfig) (doc : Document) :
    Option (List Chunk) :=
  sectionLoop cfg doc (extract_sections cfg doc.content)

/-- `MemoryBankChunker._chunk_large_file`: executive summary (lines up to
the first `'## '` or the configured cap) plus one preview chunk per
section. -/
def chunk_large_file (cfg : ChunkerConfig) (doc : Document) : List Chunk :=
  let lines := splitLinesC doc.content
  let exec_summary_lines :=
    (lines.take cfg.executive_summary_lines).takeWhile
      (fun l => ¬ ("## ".toList.isPrefixOf l))
  let base :=
    if exec_summary_lines.isEmpty then []
    else [create_chunk cfg doc (joinC ['\n'] exec_summary_lines)
      "Executive Summary".toList 0 exec_summary_lines.length]
  let sections := extract_sections cfg doc.content
  base ++ sections.map (fun sec =>
    let section_content :=
      sec.header ++ '\n' ::
        joinC ['\n'] ((splitLinesC sec.content).take cfg.section_preview_lines)
    create_chunk cfg doc section_content sec.header sec.start_line
      (sec.start_line + 5))

/-- `MemoryBankChunker.chunk_document`. -/
def chunk_document (cfg : ChunkerConfig) (file_path content : Str) :
    Option (List Chunk) :=
  let sc := categorize_document cfg content
  let doc : Document := ⟨file_path, content, sc.1, sc.2⟩
  match sc.1 with
  | .red => some (chunk_large_file cfg doc)
  | .yellow => chunk_medium_file cfg doc
  | .green => chunk_small_file cfg doc

/-! ## `core/intelligence.py` — status / temporal / priority types and the
boost computation -/

/-- `intelligence.StatusType`. -/
inductive StatusType
  | completed
  | in_progress
  | pending
  | planning
  | unknown
deriving DecidableEq, Repr

/-- `intelligence.CheckboxStatus`. -/
structure CheckboxStatus where
  text : Str
  is_completed : Bool
  line_number : Nat
  context : Str

/-- `intelligence.StatusInfo`. -/
structure StatusInfo where
  status_type : StatusType
  completion_percentage : Option ℚ
  checkbox_indicators : List CheckboxStatus
  progress_markers : List Str
  confidence : ℚ

/-- `intelligence.TemporalContext`.  The `time_markers` list is kept
abstract (its entries carry `datetime` values consumed only by the
extractor, never by the boost computation verified here). -/
structure TemporalContext where
  time_marker_texts : List Str
  current_relevance : ℚ
  phase_context : Option Str
  urgency_score : ℚ

/-- `intelligence.PriorityKeyword`. -/
structure PriorityKeyword where
  keyword : Str
  boost_multiplier : ℚ
  context : Str
  confidence : ℚ

/-- `intelligence.PriorityMarkers`. -/
structure PriorityMarkers where
  priority_keywords : List PriorityKeyword
  business_hierarchy_level : Int
  client_relevance_score : ℚ
  urgency_indicators : List Str

/-- `intelligence.IntelligenceMetadata`. -/
structure IntelligenceMetadata where
  status_info : StatusInfo
  temporal_context : TemporalContext
  priority_markers : PriorityMarkers
  overall_boost : ℚ

/-- `hierarchy_boosts.get(level, 1.0)` with
`hierarchy_boosts = {1: 1.3, 2: 1.1, 3: 1.0}`. -/
def hierarchy_boost : Int → ℚ
  | 1 => 13/10
  | 2 => 11/10
  | 3 => 1
  | _ => 1

/-- `PriorityScoringEngine.calculate_priority_multiplier`. -/
def calculate_priority_multiplier (pm : PriorityMarkers) : ℚ :=
  let base0 : ℚ := 1
  -- keyword multipliers: the max of `boost_multiplier * confidence`
  let base1 :=
    match pm.priority_keywords with
    | [] => base0
    | k :: ks =>
      let f := fun (kw : PriorityKeyword) => kw.boost_multiplier * kw.confidence
      base0 * (ks.foldl (fun m kw => max m (f kw)) (f k))
  let base2 := base1 * hierarchy_boost pm.business_hierarchy_level
  let base3 :=
    if pm.client_relevance_score > 1 then
      base2 * min (3/2 : ℚ) pm.client_relevance_score
    else base2
  let base4 :=
    if ¬ pm.urgency_indicators.isEmpty then
      base3 * min (13/10 : ℚ) (1 + (pm.urgency_indicators.length : ℚ) * (1/10))
    else base3
  -- `intelligence_boost_cap = 3.0`
  min (3 : ℚ) base4

/-- The `config.get('intelligence', {})` values the verified functions
consume (`boost_cap` defaults to `3.0`, `enabled` to `True`). -/
structure IntelligenceConfig where
  boost_cap : ℚ
  enabled : Bool

/-- `IntelligenceProcessor._calculate_overall_boost`. -/
def calculate_overall_boost (cfg : IntelligenceConfig) (status_info : StatusInfo)
    (temporal_context : TemporalContext) (priority_markers : PriorityMarkers) : ℚ :=
  let boost : ℚ := 1
  let boost :=
    match status_info.status_type with
    | .in_progress => boost * (7/5)
    | .pending => boost * (6/5)
    | .completed => boost * (4/5)
    | _ => boost
  let boost := boost * (1 + temporal_context.current_relevance * (1/2))
  let boost := boost * (1 + temporal_context.urgency_score * (3/10))
  let boost := boost * calculate_priority_multiplier priority_markers
  min cfg.boost_cap boost

/-! ## `core/embedder.py` — the content-hash-keyed embedding cache -/

/-- `LocalEmbedder.embedding_cache`: content-hash → vector
(an insertion-ordered Python dict). -/
abbrev EmbCache := List (Str × List ℚ)

/-- Python dict assignment `m[k] = v`: overwrite in place, else append. -/
def dictInsert (m : EmbCache) (k : Str) (v : List ℚ) : EmbCache :=
  if (m.lookup k).isSome then
    m.map (fun p => if p.1 = k then (k, v) else p)
  else m ++ [(k, v)]

/-- Fill the `None` placeholders left by the cache-check loop of
`embed_chunks` with the freshly generated embeddings, in order. -/
def fillSlots : List (Option (List ℚ)) → List (List ℚ) → List (List ℚ)
  | [], _ => []
  | some e :: rest, news => e :: fillSlots rest news
  | none :: rest, [] => [] :: fillSlots rest []
  | none :: rest, n :: news => n :: fillSlots rest news

/-- The result of one `LocalEmbedder.embed_chunks` call: the returned
embeddings, the cache afterwards, and the texts sent to the external
embedding model (`_batch_encode` encodes exactly the list `texts`,
batch by batch). -/
structure EmbedOutcome where
  embeddings : List (List ℚ)
  cache : EmbCache
  encoded_texts : List Str
deriving DecidableEq

/-- `LocalEmbedder.embed_chunks`.  `md5` models `_get_content_hash` and
`encode` the deterministic sentence-transformer model. -/
def embed_chunks (md5 : Str → Str) (encode : Str → List ℚ)
    (cache : EmbCache) (chunks : List Chunk) : EmbedOutcome :=
  -- first loop: cached embeddings in place, placeholders for misses
  let step := fun (acc : List (Option (List ℚ)) × List Chunk) (chunk : Chunk) =>
    match cache.lookup (md5 chunk.content) with
    | some emb => (acc.1 ++ [some emb], acc.2)
    | none => (acc.1 ++ [none], acc.2 ++ [chunk])
  let scanned := chunks.foldl step ([], [])
  let embeddings := scanned.1
  let chunks_to_embed := scanned.2
  if chunks_to_embed.isEmpty then
    ⟨embeddings.map (fun e => e.getD []), cache, []⟩
  else
    let texts := chunks_to_embed.map (·.content)
    let new_embeddings := texts.map encode
    let cache' := (chunks_to_embed.zip new_embeddings).foldl
      (fun m p => dictInsert m (md5 p.1.content) p.2) cache
    ⟨fillSlots embeddings new_embeddings, cache', texts⟩

/-! ## `core/searcher.py` — hybrid search -/

/-- The metadata dict stored per chunk by `HybridSearcher.add_chunks`.
The five intelligence keys are present only when intelligence processing
ran (Python writes them conditionally into the dict); reads go through
`dict.get` with defaults, modelled by `Option.getD`. -/
structure StoredMeta where
  document_path : Str
  section_header : Str
  navigation_path : Str
  start_line : Nat
  end_line : Nat
  size_category : SizeCat
  intelligence_boost : Option ℚ
  status_type : Option StatusType
  current_relevance : Option ℚ
  urgency_score : Option ℚ
  priority_level : Option Int
deriving DecidableEq

/-- One entry of the ChromaDB collection
(`ids` / `embeddings` / `documents` / `metadatas`). -/
structure StoredChunk where
  id : Str
  embedding : List ℚ
  document : Str
  metadata : StoredMeta
deriving DecidableEq

/-- `searcher.SearchResult`.  The reconstructed `Chunk` of the Python
object is represented by the fields the search pipeline reads
(`chunk.chunk_id`, `chunk.content`, `chunk.document_path`,
`chunk.metadata`); `enhanced_score` starts out equal to `score` in
`SearchResult.__init__`. -/
structure SearchResultR where
  chunk_id : Str
  content : Str
  document_path : Str
  metadata : StoredMeta
  score : ℚ
  relevance_type : Str
  enhanced_score : ℚ
deriving DecidableEq

/-- `HybridSearcher` state: the ChromaDB client's collections
(name → contents) and `self.collection` (None until
`create_or_load_collection`). -/
structure SearcherState where
  client : List (Str × List StoredChunk)
  collection : Option Str
deriving DecidableEq

/-- The search parameters read from the config in
`HybridSearcher.__init__`. -/
structure SearcherConfig where
  top_k : Nat
  relevance_threshold : ℚ
  hybrid_alpha : ℚ
  intelligence_enabled : Bool

/-- `HybridSearcher.create_or_load_collection`: load the named collection
if the client has it, else create it empty. -/
def create_or_load_collection (s : SearcherState) (name : Str) : SearcherState :=
  match s.client.lookup name with
  | some _ => { s with collection := some name }
  | none => { client := s.client ++ [(name, [])], collection := some name }

/-- Replace the contents of collection `name` in the client. -/
def setCollection (s : SearcherState) (name : Str) (contents : List StoredChunk) :
    SearcherState :=
  { s with client := s.client.map (fun p => if p.1 = name then (name, contents) else p) }

/-- `HybridSearcher.add_chunks`.  `intel` models
`IntelligenceProcessor.process_chunk_intelligence` (pure per-content
regex analysis); the `except` branch that stores only
`intelligence_boost = 1.0` is unreachable in the model (no exceptions),
so the enabled path always stores all five fields. -/
def add_chunks (intel : Str → Str → IntelligenceMetadata) (cfg : SearcherConfig)
    (s : SearcherState) (chunks : List Chunk) (embeddings : List (List ℚ)) :
    Except Str SearcherState :=
  match s.collection with
  | none => .error "Collection not initialized. Call create_or_load_collection first.".toList
  | some name =>
    let mkMeta := fun (chunk : Chunk) =>
      let base : StoredMeta :=
        { document_path := chunk.document_path
          section_header := chunk.section_header
          navigation_path := chunk.navigation_path
          start_line := chunk.start_line
          end_line := chunk.end_line
          size_category := chunk.metadata.size_category
          intelligence_boost := none
          status_type := none
          current_relevance := none
          urgency_score := none
          priority_level := none }
      if cfg.intelligence_enabled then
        let im := intel chunk.content chunk.document_path
        { base with
            intelligence_boost := some im.overall_boost
            status_type := some im.status_info.status_type
            current_relevance := some im.temporal_context.current_relevance
            urgency_score := some im.temporal_context.urgency_score
            priority_level := some im.priority_markers.business_hierarchy_level }
      else base
    let newEntries := (chunks.zip embeddings).map (fun ce =>
      StoredChunk.mk ce.1.chunk_id ce.2 ce.1.content (mkMeta ce.1))
    let old := (s.client.lookup name).getD []
    .ok (setCollection s name (old ++ newEntries))

/-- `HybridSearcher.delete_document`: drop every stored chunk whose
`document_path` metadata equals the given path (a no-op when the
collection is uninitialized — Python returns early, no error). -/
def delete_document (s : SearcherState) (document_path : Str) : SearcherState :=
  match s.collection with
  | none => s
  | some name =>
    let contents := (s.client.lookup name).getD []
    setCollection s name
      (contents.filter (fun sc => sc.metadata.document_path ≠ document_path))

/-- `HybridSearcher._sanitize_query`: drop `<`, `>`, quote and apostrophe
characters, clamp to 1000 characters, collapse whitespace. -/
def sanitize_query (query : Str) : Str :=
  let sanitized := query.filter
    (fun c => ¬ (c = '<' ∨ c = '>' ∨ c = Char.ofNat 34 ∨ c = Char.ofNat 39))
  let sanitized := sanitized.take 1000
  stripC (joinC [' '] (wordsC sanitized))

/-- `HybridSearcher._keyword_search` with `domain = None` (no keyword
extension, no file filter): substring-match each query keyword against
the lowercased stored documents. -/
def keyword_search (stored : List StoredChunk) (query : Str) : List SearchResultR :=
  let all_results := stored.take 1000
  let keywords := wordsC (lowerC query)
  all_results.foldl (fun acc sc =>
    let content := lowerC sc.document
    let match_count := keywords.countP (fun k => substrC k content)
    if match_count > 0 then
      let score : ℚ := (match_count : ℚ) / (keywords.length : ℚ)
      acc ++ [⟨sc.id, sc.document, sc.metadata.document_path, sc.metadata,
        score, "keyword".toList, score⟩]
    else acc) []

/-- The body of the `for result in semantic_results` loop of
`HybridSearcher._combine_results`, acting on the insertion-ordered
`combined_map` (scale a fresh entry by `alpha`, add `score*alpha` to an
existing one). -/
def combineInsertSem (alpha : ℚ) (m : List SearchResultR) (result : SearchResultR) :
    List SearchResultR :=
  if m.any (fun e => e.chunk_id == result.chunk_id) then
    m.map (fun e =>
      if e.chunk_id = result.chunk_id then
        { e with score := e.score + result.score * alpha }
      else e)
  else m ++ [{ result with score := result.score * alpha }]

/-- The body of the `for result in keyword_results` loop of
`HybridSearcher._combine_results` (scale a fresh entry by `1 - alpha` and
tag it `keyword`; add `score*(1-alpha)` to an existing entry and retag it
`hybrid`). -/
def combineInsertKw (alpha : ℚ) (m : List SearchResultR) (result : SearchResultR) :
    List SearchResultR :=
  if m.any (fun e => e.chunk_id == result.chunk_id) then
    m.map (fun e =>
      if e.chunk_id = result.chunk_id then
        { e with score := e.score + result.score * (1 - alpha),
                 relevance_type := "hybrid".toList }
      else e)
  else
    m ++ [{ result with score := result.score * (1 - alpha),
                        relevance_type := "keyword".toList }]

/-- `HybridSearcher._combine_results`: fold both result lists into
`combined_map` and return its values in insertion order. -/
def combine_results (semantic_results keyword_results : List SearchResultR)
    (alpha : ℚ) : List SearchResultR :=
  let m := semantic_results.foldl (combineInsertSem alpha) []
  keyword_results.foldl (combineInsertKw alpha) m

/-- `HybridSearcher._apply_query_specific_boost`. -/
def apply_query_specific_boost (base_score : ℚ) (query : Str)
    (status_type : StatusType) (current_relevance urgency_score : ℚ) : ℚ :=
  let query_lower := lowerC query
  let hasAny := fun (terms : List String) =>
    terms.any (fun t => substrC t.toList query_lower)
  let boost := base_score
  let boost :=
    if hasAny ["current", "active", "now", "today"] then
      (if status_type = .in_progress then boost * (3/2) else boost) *
        (1 + current_relevance * (1/2))
    else boost
  let boost :=
    if hasAny ["urgent", "priority", "critical", "deadline"] then
      boost * (1 + urgency_score * (7/10))
    else boost
  let boost :=
    if hasAny ["andrew", "client", "engagement", "sprint"] then
      boost * (13/10)
    else boost
  let boost :=
    if hasAny ["completed", "done", "finished"] then
      if status_type = .completed then boost * (7/5) else boost
    else boost
  boost

/-- The optional `intelligence_filters` dict of `HybridSearcher.search`. -/
structure IntelligenceFilters where
  status_type : Option StatusType
  max_priority_level : Option Int
  min_urgency_score : Option ℚ
  min_current_relevance : Option ℚ

/-- `HybridSearcher._passes_intelligence_filters`. -/
def passes_intelligence_filters (md : StoredMeta) (f : IntelligenceFilters) : Bool :=
  (match f.status_type with
   | some required => decide (md.status_type.getD .unknown = required)
   | none => true) &&
  (match f.max_priority_level with
   | some maxL => decide (¬ (md.priority_level.getD 3 > maxL))
   | none => true) &&
  (match f.min_urgency_score with
   | some minU => decide (¬ (md.urgency_score.getD 0 < minU))
   | none => true) &&
  (match f.min_current_relevance with
   | some minR => decide (¬ (md.current_relevance.getD (1/2) < minR))
   | none => true)

/-- `HybridSearcher._apply_intelligence_boost`. -/
def apply_intelligence_boost (results : List SearchResultR) (query : Str)
    (intelligence_filters : Option IntelligenceFilters) : List SearchResultR :=
  results.foldl (fun acc result =>
    let md := result.metadata
    let enhanced := apply_query_specific_boost
      (result.score * md.intelligence_boost.getD 1) query
      (md.status_type.getD .unknown) (md.current_relevance.getD (1/2))
      (md.urgency_score.getD 0)
    match intelligence_filters with
    | some f =>
      if passes_intelligence_filters md f then
        acc ++ [{ result with enhanced_score := enhanced }]
      else acc
    | none => acc ++ [{ result with enhanced_score := enhanced }]) []

/-- `HybridSearcher.search` with `domain = None` (so no keyword extension
and no domain boost).  `semantic` models the embed-query +
ChromaDB-nearest-neighbour leg (`_semantic_search` as a function of the
sanitized query; its results are tagged `semantic` by construction). -/
def search (semantic : Str → List SearchResultR) (cfg : SearcherConfig)
    (s : SearcherState) (query : Str)
    (intelligence_filters : Option IntelligenceFilters) :
    Except Str (List SearchResultR) :=
  match s.collection with
  | none => .error "Collection not initialized. Call create_or_load_collection first.".toList
  | some name =>
    let stored := (s.client.lookup name).getD []
    let q := sanitize_query query
    let semantic_results := semantic q
    let keyword_results := keyword_search stored q
    let combined := combine_results semantic_results keyword_results cfg.hybrid_alpha
    let boosted :=
      if cfg.intelligence_enabled then
        apply_intelligence_boost combined q intelligence_filters
      else
        combined.map (fun r => { r with enhanced_score := r.score })
    let sorted := boosted.mergeSort (fun a b => decide (b.enhanced_score ≤ a.enhanced_score))
    .ok ((sorted.filter (fun r => decide (cfg.relevance_threshold ≤ r.enhanced_score))).take
      cfg.top_k)

/-! ## `core/indexer.py` — change detection and incremental indexing -/

/-- One value of the scan dictionary built by
`IncrementalIndexer._scan_memory_bank` (and persisted as IndexState). -/
structure FileMeta where
  absolute_path : Str
  hash : Str
  mtime : ℚ
  size : Nat
deriving DecidableEq

/-- A scan result / persisted index state: relative path → metadata
(an insertion-ordered Python dict). -/
abbrev IndexState := List (Str × FileMeta)

/-- The keys of an index state. -/
def stateKeys (st : IndexState) : List Str := st.map Prod.fst

/-- `IncrementalIndexer.detect_changes`, as a function of the current
scan and the loaded previous state.  Python iterates the set differences
and the intersection in unspecified hash order; the model iterates in key
order, which is membership-equivalent.  Returns
`(new_files, modified_files, deleted_files)`. -/
def detect_changes (current_state previous_state : IndexState) :
    List Str × List Str × List Str :=
  let current_files := stateKeys current_state
  let previous_files := stateKeys previous_state
  let new_files := current_files.filter (fun p => ¬ previous_files.contains p)
  let deleted_files := previous_files.filter (fun p => ¬ current_files.contains p)
  let modified_files := (current_files.filter (fun p => previous_files.contains p)).filter
    (fun p => ((current_state.lookup p).map FileMeta.hash) ≠
              ((previous_state.lookup p).map FileMeta.hash))
  (new_files, modified_files, deleted_files)

/-- The external collaborators of an indexing pass: `md5` and `encode`
for the embedder, `intel` for intelligence processing, and `readFile`
(absolute path → content; `none` models an unreadable or undecodable
file, for which both `open` attempts fail and the file is skipped). -/
structure IndexEnv where
  md5 : Str → Str
  encode : Str → List ℚ
  intel : Str → Str → IntelligenceMetadata
  readFile : Str → Option Str

/-- The outcome of `IncrementalIndexer.incremental_index`: the returned
count, the embedding cache, the searcher state, and the IndexState on
disk afterwards. -/
structure IndexOutcome where
  indexed_count : Nat
  cache : EmbCache
  searcher : SearcherState
  index_state : IndexState
deriving DecidableEq

/-- The body of the `for file_path in files_to_index` loop of
`incremental_index`.  Every per-file exception is caught and logged and
the loop continues; the one behaviour with no Python value — the
word-window loop not terminating — is `none`. -/
def index_file_step (env : IndexEnv) (ccfg : ChunkerConfig) (scfg : SearcherConfig)
    (current_state : IndexState) (acc : Option (Nat × EmbCache × SearcherState))
    (file_path : Str) : Option (Nat × EmbCache × SearcherState) :=
  match acc with
  | none => none
  | some (count, cache, srch) =>
    match current_state.lookup file_path with
    | none => some (count, cache, srch)
    | some meta =>
      match env.readFile meta.absolute_path with
      | none => some (count, cache, srch)
      | some content =>
        if stripC content = [] then some (count, cache, srch)
        else
          match chunk_document ccfg file_path content with
          | none => none
          | some chunks =>
            if chunks.isEmpty then some (count, cache, srch)
            else
              let out := embed_chunks env.md5 env.encode cache chunks
              match add_chunks env.intel scfg srch chunks out.embeddings with
              | .error _ => some (count, out.cache, srch)
              | .ok srch' => some (count + 1, out.cache, srch')

/-- `IncrementalIndexer.incremental_index`, as a function of the scan
result (Python scans the tree twice — once inside `detect_changes`, once
before the loop — and the model assumes the filesystem does not change
between the two, passing the same `current_state`).  With no detected
changes the function returns 0 before touching the collection or
rewriting the state file. -/
def incremental_index (env : IndexEnv) (ccfg : ChunkerConfig) (scfg : SearcherConfig)
    (current_state previous_state : IndexState)
    (cache : EmbCache) (searcher : SearcherState) : Option IndexOutcome :=
  let changes := detect_changes current_state previous_state
  let new_files := changes.1
  let modified_files := changes.2.1
  let deleted_files := changes.2.2
  let total_changes := new_files.length + modified_files.length + deleted_files.length
  if total_changes = 0 then
    some ⟨0, cache, searcher, previous_state⟩
  else
    let searcher1 := deleted_files.foldl delete_document searcher
    let searcher2 := modified_files.foldl delete_document searcher1
    let files_to_index := new_files ++ modified_files
    match files_to_index.foldl (index_file_step env ccfg scfg current_state)
        (some (0, cache, searcher2)) with
    | none => none
    | some (count, cache', srch') => some ⟨count, cache', srch', current_state⟩

/-! ## Spec-side definitions -/

/-- The slug described by the spec sentence for citations: the section
header lowercased, then every space replaced by a hyphen, then every `#`
character removed — written character-wise, independently of the
sequential `str.replace` calls in the code. -/
def specSlug (header : Str) : Str :=
  ((header.map Char.toLower).map (fun c => if c = ' ' then '-' else c)).filter
    (fun c => ¬ c = '#')

/-- The portion of a document that small-tier chunking can cover: the
whole content when no line matches the configured header pattern,
otherwise the content from the first header line onward (text before the
first section header is not captured by `_extract_sections`). -/
def contentFromFirstHeader (cfg : ChunkerConfig) (content : Str) : Str :=
  let lines := splitLinesC content
  if lines.all (fun l => ¬ cfg.isHeader l) then content
  else joinC ['\n'] (lines.dropWhile (fun l => ¬ cfg.isHeader l))

/-- The words accumulated by an `_extract_sections` loop state: the words
of all closed sections plus the words of the open section's
`current_content`. -/
def unpackWords (st : ExtractState) : List Str :=
  st.1.flatMap (fun s => wordsC s.content) ++
    (match st.2.1 with
     | some _ => wordsC (joinC ['\n'] st.2.2)
     | none => [])

/-- A concrete chunker configuration for witnesses and counterexamples:
`section_regex = '^## '`, `chunk_size = 100`, `chunk_overlap = 10`,
thresholds 400/600, md5 modelled as the identity. -/
def cfgEx : ChunkerConfig :=
  { chunk_size := 100
    chunk_overlap := 10
    isHeader := fun l => "## ".toList.isPrefixOf l
    small_threshold := 400
    medium_threshold := 600
    executive_summary_lines := 100
    section_preview_lines := 5
    idHash := id }

/-- A small/medium threshold pair (2/5 lines) for concrete tier checks. -/
def cfgTiers : ChunkerConfig :=
  { cfgEx with small_threshold := 2, medium_threshold := 5 }

/-- A concrete small-tier document with text before its first section
header. -/
def cexDoc : Str := "intro\n## A\nbody".toList

/-- The single section content extracted from `cexDoc`. -/
def cexSec : Str := "## A\nbody".toList

/-- A concrete small-tier document that starts at a section header. -/
def witDoc : Str := "## A\nbody\n## B\nmore text".toList

/-- A concrete chunk whose content is the text `dup` (first of two
duplicates). -/
def chunkDupA : Chunk :=
  { chunk_id := "c1".toList
    document_path := "a.md".toList
    section_header := "S".toList
    content := "dup".toList
    navigation_path := "a.md".toList
    start_line := 0
    end_line := 1
    metadata := ⟨.green, 2, "a.md".toList⟩ }

/-- A second chunk with byte-identical content but a different id. -/
def chunkDupB : Chunk :=
  { chunkDupA with chunk_id := "c2".toList }

/-- A concrete stored-metadata record (no intelligence fields). -/
def metaEx : StoredMeta :=
  { document_path := "a.md".toList
    section_header := "S".toList
    navigation_path := "n".toList
    start_line := 0
    end_line := 1
    size_category := .green
    intelligence_boost := none
    status_type := none
    current_relevance := none
    urgency_score := none
    priority_level := none }

/-- A concrete semantic-leg result for chunk id `x` with score `1/2`. -/
def srX : SearchResultR :=
  { chunk_id := "x".toList
    content := "cx".toList
    document_path := "a.md".toList
    metadata := metaEx
    score := 1/2
    relevance_type := "semantic".toList
    enhanced_score := 1/2 }

/-- A concrete keyword-leg result for the same chunk id `x`, score `1/4`. -/
def krX : SearchResultR :=
  { srX with score := 1/4, relevance_type := "keyword".toList,
             enhanced_score := 1/4 }

/-- A concrete keyword-leg result for a different chunk id `y`, score 1. -/
def krY : SearchResultR :=
  { srX with chunk_id := "y".toList, score := 1,
             relevance_type := "keyword".toList, enhanced_score := 1 }

/-! ## Basic lemmas about the string model -/

theorem splitLinesC_ne_nil (s : Str) : splitLinesC s ≠ [] := by
  induction s with
  | nil => simp [splitLinesC]
  | cons c rest ih =>
    simp only [splitLinesC]
    split
    · simp
    · cases h : splitLinesC rest <;> simp

theorem splitLinesC_length (s : Str) : (splitLinesC s).length = s.count '\n' + 1 := by
  induction s with
  | nil => simp [splitLinesC]
  | cons c rest ih =>
    simp only [splitLinesC]
    by_cases hc : c = '\n'
    · simp [hc, List.count_cons, ih]
    · cases h : splitLinesC rest with
      | nil => exact absurd h (splitLinesC_ne_nil rest)
      | cons l ls =>
        simp [hc, List.count_cons, ← ih, h]

/-! ## C3: the overall intelligence boost is capped -/

/-- C3.  Boost cap: whatever the status, temporal and priority signals
are, `_calculate_overall_boost` returns at most the configured
`boost_cap` ceiling. -/
theorem overall_boost_le_cap (cfg : IntelligenceConfig) (si : StatusInfo)
    (tc : TemporalContext) (pm : PriorityMarkers) :
    calculate_overall_boost cfg si tc pm ≤ cfg.boost_cap := by
  unfold calculate_overall_boost
  exact min_le_left _ _

/-! ## C9: the collection-initialization precondition -/

/-- C9.  `add_chunks` and `search` fail with the uninitialized-collection
error exactly when `self.collection` is unset, and after
`create_or_load_collection` the collection is set, so neither call fails. -/
theorem collection_precondition (intel : Str → Str → IntelligenceMetadata)
    (semantic : Str → List SearchResultR) (cfg : SearcherConfig)
    (s : SearcherState) (chunks : List Chunk) (embeddings : List (List ℚ))
    (query : Str) (fil : Option IntelligenceFilters) (name : Str) :
    ((∃ e, add_chunks intel cfg s chunks embeddings = .error e) ↔
      s.collection = none) ∧
    ((∃ e, search semantic cfg s query fil = .error e) ↔ s.collection = none) ∧
    (create_or_load_collection s name).collection = some name ∧
    (∃ t, add_chunks intel cfg (create_or_load_collection s name) chunks
      embeddings = .ok t) ∧
    (∃ rs, search semantic cfg (create_or_load_collection s name) query fil
      = .ok rs) := by
  refine ⟨?_, ?_, ?_, ?_, ?_⟩
  · cases h : s.collection <;> simp [add_chunks, h]
  · cases h : s.collection <;> simp [search, h]
  · unfold create_or_load_collection
    cases s.client.lookup name <;> rfl
  · unfold create_or_load_collection
    cases h : s.client.lookup name <;> simp [add_chunks]
  · unfold create_or_load_collection
    cases h : s.client.lookup name <;> simp [search]

/-! ## C6: tier boundaries -/

/-- C6.  Tier boundaries: with `small_file_lines < medium_file_lines`, a
document of exactly `small_file_lines` newline-separated lines is small
tier (🟢) and one more line is medium tier (🟡); exactly
`medium_file_lines` lines is medium tier and one more line is large tier
(🔴); and the returned line count is the newline count plus one. -/
theorem categorize_tier_boundaries (cfg : ChunkerConfig)
    (hsm : cfg.small_threshold < cfg.medium_threshold)
    (c1 c2 c3 c4 : Str)
    (h1 : c1.count '\n' + 1 = cfg.small_threshold)
    (h2 : c2.count '\n' + 1 = cfg.small_threshold + 1)
    (h3 : c3.count '\n' + 1 = cfg.medium_threshold)
    (h4 : c4.count '\n' + 1 = cfg.medium_threshold + 1) :
    (categorize_document cfg c1).1 = .green ∧
    (categorize_document cfg c2).1 = .yellow ∧
    (categorize_document cfg c3).1 = .yellow ∧
    (categorize_document cfg c4).1 = .red ∧
    ∀ content : Str, (categorize_document cfg content).2 = content.count '\n' + 1 := by
  refine ⟨?_, ?_, ?_, ?_, ?_⟩
  · simp only [categorize_document, splitLinesC_length, h1]
    split_ifs <;> first | rfl | omega
  · simp only [categorize_document, splitLinesC_length, h2]
    split_ifs <;> first | rfl | omega
  · simp only [categorize_document, splitLinesC_length, h3]
    split_ifs <;> first | rfl | omega
  · simp only [categorize_document, splitLinesC_length, h4]
    split_ifs <;> first | rfl | omega
  · intro content
    simp only [categorize_document, splitLinesC_length]
    split_ifs <;> rfl

/-- Witness for C6 at concrete inputs: 2-, 3-, 5- and 6-line documents
against thresholds 2/5. -/
theorem categorize_tier_boundaries_witness :
    (cfgTiers.small_threshold < cfgTiers.medium_threshold ∧
     "a\nb".toList.count '\n' + 1 = cfgTiers.small_threshold ∧
     "a\nb\nc".toList.count '\n' + 1 = cfgTiers.small_threshold + 1 ∧
     "a\nb\nc\nd\ne".toList.count '\n' + 1 = cfgTiers.medium_threshold ∧
     "a\nb\nc\nd\ne\nf".toList.count '\n' + 1 = cfgTiers.medium_threshold + 1) ∧
    (categorize_document cfgTiers "a\nb".toList).1 = .green ∧
    (categorize_document cfgTiers "a\nb\nc".toList).1 = .yellow ∧
    (categorize_document cfgTiers "a\nb\nc\nd\ne".toList).1 = .yellow ∧
    (categorize_document cfgTiers "a\nb\nc\nd\ne\nf".toList).1 = .red ∧
    (categorize_document cfgTiers "a\nb".toList).2 = "a\nb".toList.count '\n' + 1 := by
  have h := categorize_tier_boundaries cfgTiers (by decide)
    "a\nb".toList "a\nb\nc".toList "a\nb\nc\nd\ne".toList "a\nb\nc\nd\ne\nf".toList
    (by decide) (by decide) (by decide) (by decide)
  exact ⟨⟨by decide, by decide, by decide, by decide, by decide⟩,
    h.1, h.2.1, h.2.2.1, h.2.2.2.1, h.2.2.2.2 "a\nb".toList⟩

/-! ## C8: citation slug -/

theorem replaceC_single_map (o n : Char) (s : Str) :
    replaceC [o] [n] s = s.map (fun c => if c = o then n else c) := by
  induction s with
  | nil => simp [replaceC]
  | cons c rest ih =>
    simp only [replaceC, List.isPrefixOf, List.map_cons]
    by_cases hc : c = o
    · subst hc
      simp [ih]
    · have : ¬ (o == c) = true := by
        simp [BEq.beq]
        exact fun h => hc h.symm
      simp [this, hc, ih]

theorem replaceC_single_filter (o : Char) (s : Str) :
    replaceC [o] [] s = s.filter (fun c => ¬ c = o) := by
  induction s with
  | nil => simp [replaceC]
  | cons c rest ih =>
    simp only [replaceC, List.isPrefixOf]
    by_cases hc : c = o
    · subst hc
      simp [ih, List.filter_cons]
    · have : ¬ (o == c) = true := by
        simp [BEq.beq]
        exact fun h => hc h.symm
      simp [this, hc, ih, List.filter_cons]

/-- C8.  Citation round-trip: `generate_citation` is exactly the document
path, a `#`, and the spec's slug (header lowercased, spaces to hyphens,
`#` characters removed). -/
theorem generate_citation_spec (c : Chunk) :
    c.generate_citation = c.document_path ++ '#' :: specSlug c.section_header := by
  unfold Chunk.generate_citation specSlug lowerC
  simp only [pyReplace, replaceC_single_map, replaceC_single_filter]
  simp

/-! ## C2: change classification -/

/-- C2.  `detect_changes` classifies every path exactly as the spec's set
equations say: new = current − previous, deleted = previous − current,
modified = common paths whose content hash changed; the three lists are
pairwise disjoint and an unchanged common path is in none of them. -/
theorem detect_changes_spec (current_state previous_state : IndexState) (p : Str) :
    (p ∈ (detect_changes current_state previous_state).1 ↔
      p ∈ stateKeys current_state ∧ ¬ p ∈ stateKeys previous_state) ∧
    (p ∈ (detect_changes current_state previous_state).2.2 ↔
      p ∈ stateKeys previous_state ∧ ¬ p ∈ stateKeys current_state) ∧
    (p ∈ (detect_changes current_state previous_state).2.1 ↔
      p ∈ stateKeys current_state ∧ p ∈ stateKeys previous_state ∧
      ¬ ((current_state.lookup p).map FileMeta.hash =
         (previous_state.lookup p).map FileMeta.hash)) ∧
    ¬ (p ∈ (detect_changes current_state previous_state).1 ∧
       p ∈ (detect_changes current_state previous_state).2.1) ∧
    ¬ (p ∈ (detect_changes current_state previous_state).1 ∧
       p ∈ (detect_changes current_state previous_state).2.2) ∧
    ¬ (p ∈ (detect_changes current_state previous_state).2.1 ∧
       p ∈ (detect_changes current_state previous_state).2.2) ∧
    ¬ (p ∈ stateKeys current_state ∧ p ∈ stateKeys previous_state ∧
       (current_state.lookup p).map FileMeta.hash =
         (previous_state.lookup p).map FileMeta.hash ∧
       (p ∈ (detect_changes current_state previous_state).1 ∨
        p ∈ (detect_changes current_state previous_state).2.1 ∨
        p ∈ (detect_changes current_state previous_state).2.2)) := by
  have h1 : p ∈ (detect_changes current_state previous_state).1 ↔
      p ∈ stateKeys current_state ∧ ¬ p ∈ stateKeys previous_state := by
    simp [detect_changes, List.mem_filter]
  have h2 : p ∈ (detect_changes current_state previous_state).2.2 ↔
      p ∈ stateKeys previous_state ∧ ¬ p ∈ stateKeys current_state := by
    simp [detect_changes, List.mem_filter]
  have h3 : p ∈ (detect_changes current_state previous_state).2.1 ↔
      p ∈ stateKeys current_state ∧ p ∈ stateKeys previous_state ∧
      ¬ ((current_state.lookup p).map FileMeta.hash =
         (previous_state.lookup p).map FileMeta.hash) := by
    simp [detect_changes, List.mem_filter]
    tauto
  refine ⟨h1, h2, h3, ?_, ?_, ?_, ?_⟩ <;> simp only [h1, h2, h3] <;> tauto

/-! ## C5: idempotence of incremental indexing -/

theorem detect_changes_self (st : IndexState) : detect_changes st st = ([], [], []) := by
  simp [detect_changes]

/-- C5.  Idempotence: when the current scan equals the persisted
IndexState, `incremental_index` returns 0 and leaves the embedding cache,
the collection, and the persisted state untouched (no chunk deletions or
insertions happen). -/
theorem incremental_index_idempotent (env : IndexEnv) (ccfg : ChunkerConfig)
    (scfg : SearcherConfig) (st : IndexState) (cache : EmbCache)
    (searcher : SearcherState) :
    incremental_index env ccfg scfg st st cache searcher =
      some ⟨0, cache, searcher, st⟩ := by
  unfold incremental_index
  rw [detect_changes_self]
  simp

/-! ## C4: the embedding cache -/

theorem lookup_map_update (m : EmbCache) (k : Str) (v : List ℚ) :
    ((m.map (fun p => if p.1 = k then (k, v) else p)).lookup k) =
      (m.lookup k).map (fun _ => v) := by
  induction m with
  | nil => rfl
  | cons a rest ih =>
    obtain ⟨a1, b1⟩ := a
    by_cases h : a1 = k
    · subst h
      rw [List.map_cons, if_pos (show (a1, b1).1 = a1 from rfl)]
      simp [List.lookup]
    · have hne : (k == a1) = false :=
        beq_eq_false_iff_ne.mpr (fun he => h he.symm)
      rw [List.map_cons, if_neg (show ¬ (a1, b1).1 = k from h)]
      simp only [List.lookup, hne, ih]

theorem lookup_append_right (m : EmbCache) (k : Str) (v : List ℚ)
    (h : m.lookup k = none) : (m ++ [(k, v)]).lookup k = some v := by
  induction m with
  | nil => simp [List.lookup]
  | cons a rest ih =>
    obtain ⟨a1, b1⟩ := a
    cases hb : (k == a1) with
    | true => simp [List.lookup, hb] at h
    | false =>
      simp only [List.cons_append, List.lookup, hb] at h ⊢
      exact ih h

theorem dictInsert_lookup_self (m : EmbCache) (k : Str) (v : List ℚ) :
    (dictInsert m k v).lookup k = some v := by
  unfold dictInsert
  by_cases h : (m.lookup k).isSome
  · rw [if_pos h, lookup_map_update]
    cases hm : m.lookup k with
    | none => rw [hm] at h; simp at h
    | some w => simp
  · rw [if_neg h]
    apply lookup_append_right
    cases hm : m.lookup k with
    | none => rfl
    | some w => rw [hm] at h; simp at h

/-- C4 counterexample.  Two chunks with byte-identical content embedded in
the same `embed_chunks` call, against an empty cache, are both sent to the
embedding model: the text `dup` is encoded twice, not once. -/
theorem embed_chunks_same_call_encodes_twice :
    (embed_chunks id (fun _ => ([] : List ℚ)) []
        [chunkDupA, chunkDupB]).encoded_texts.count "dup".toList = 2 ∧
    ¬ ((embed_chunks id (fun _ => ([] : List ℚ)) []
        [chunkDupA, chunkDupB]).encoded_texts.count "dup".toList = 1) := by
  decide

/-- C4 (amended).  Across distinct `embed_chunks` calls the cache works:
if a content is uncached, a call embedding one chunk with that content
sends it to the model exactly once, and a later call embedding another
chunk with byte-identical content sends nothing — the total number of
model encodings of that text over the two calls is one. -/
theorem embed_chunks_once_across_calls (md5 : Str → Str)
    (encode : Str → List ℚ) (cache : EmbCache) (c1 c2 : Chunk)
    (hcc : c2.content = c1.content)
    (hmiss : cache.lookup (md5 c1.content) = none) :
    (embed_chunks md5 encode cache [c1]).encoded_texts.count c1.content +
      (embed_chunks md5 encode (embed_chunks md5 encode cache [c1]).cache
        [c2]).encoded_texts.count c1.content = 1 ∧
    (embed_chunks md5 encode (embed_chunks md5 encode cache [c1]).cache
        [c2]).encoded_texts = [] := by
  have h1 : embed_chunks md5 encode cache [c1] =
      ⟨[encode c1.content], dictInsert cache (md5 c1.content) (encode c1.content),
        [c1.content]⟩ := by
    simp [embed_chunks, hmiss, fillSlots]
  have h2 : (embed_chunks md5 encode (embed_chunks md5 encode cache [c1]).cache
      [c2]).encoded_texts = [] := by
    rw [h1]
    simp [embed_chunks, hcc, dictInsert_lookup_self]
  refine ⟨?_, h2⟩
  rw [h2, h1]
  simp

/-- Witness for C4 (amended): the two duplicate chunks, an empty cache,
identity hash, and a constant model. -/
theorem embed_chunks_once_across_calls_witness :
    (chunkDupB.content = chunkDupA.content ∧
     ([] : EmbCache).lookup (id chunkDupA.content) = none) ∧
    ((embed_chunks id (fun _ => ([] : List ℚ)) [] [chunkDupA]).encoded_texts.count
        chunkDupA.content +
      (embed_chunks id (fun _ => ([] : List ℚ))
        (embed_chunks id (fun _ => ([] : List ℚ)) [] [chunkDupA]).cache
        [chunkDupB]).encoded_texts.count chunkDupA.content = 1 ∧
     (embed_chunks id (fun _ => ([] : List ℚ))
        (embed_chunks id (fun _ => ([] : List ℚ)) [] [chunkDupA]).cache
        [chunkDupB]).encoded_texts = []) :=
  ⟨⟨by decide, by decide⟩,
    embed_chunks_once_across_calls id (fun _ => ([] : List ℚ)) [] chunkDupA
      chunkDupB (by decide) (by decide)⟩

/-! ## C1: hybrid score fusion -/

theorem find?_map_presId (m : List SearchResultR) (f : SearchResultR → SearchResultR)
    (hpres : ∀ e, (f e).chunk_id = e.chunk_id) (id : Str) :
    (m.map f).find? (fun e => e.chunk_id == id) =
      (m.find? (fun e => e.chunk_id == id)).map f := by
  induction m with
  | nil => rfl
  | cons a rest ih =>
    rw [List.map_cons]
    cases hb : (a.chunk_id == id) with
    | true => simp [List.find?, hpres a, hb]
    | false => simp [List.find?, hpres a, hb, ih]

theorem find?_of_mem_nodupId (l : List SearchResultR) (r : SearchResultR)
    (hmem : r ∈ l) (hnd : (l.map (fun e => e.chunk_id)).Nodup) :
    l.find? (fun e => e.chunk_id == r.chunk_id) = some r := by
  induction l with
  | nil => cases hmem
  | cons a rest ih =>
    have hnd' : (a.chunk_id :: rest.map (fun e => e.chunk_id)).Nodup := by
      simpa using hnd
    rcases List.mem_cons.mp hmem with h | h
    · subst h
      exact List.find?_cons_of_pos _ (by simp)
    · have hne : (a.chunk_id == r.chunk_id) = false := by
        rw [beq_eq_false_iff_ne]
        intro hEq
        exact (List.nodup_cons.mp hnd').1
          (hEq ▸ List.mem_map_of_mem (fun e => e.chunk_id) h)
      have hrec := ih h (List.nodup_cons.mp hnd').2
      simp [List.find?, hne, hrec]

theorem semFold_eq (alpha : ℚ) (sems : List SearchResultR) :
    ∀ m : List SearchResultR,
    (∀ e ∈ m, ∀ r ∈ sems, ¬ e.chunk_id = r.chunk_id) →
    ((sems.map (fun e => e.chunk_id)).Nodup) →
    sems.foldl (combineInsertSem alpha) m =
      m ++ sems.map (fun r => { r with score := r.score * alpha }) := by
  induction sems with
  | nil => intro m _ _; simp
  | cons r rest ih =>
    intro m hdis hnd
    have hnd' : (r.chunk_id :: rest.map (fun e => e.chunk_id)).Nodup := by
      simpa using hnd
    rw [List.foldl_cons]
    have hany : m.any (fun e => e.chunk_id == r.chunk_id) = false := by
      rw [List.any_eq_false]
      intro e he
      simp only [beq_iff_eq]
      exact hdis e he r (List.mem_cons_self r rest)
    have hstep : combineInsertSem alpha m r =
        m ++ [{ r with score := r.score * alpha }] := by
      simp [combineInsertSem, hany]
    have hdis' : ∀ e ∈ m ++ [{ r with score := r.score * alpha }],
        ∀ r' ∈ rest, ¬ e.chunk_id = r'.chunk_id := by
      intro e he r' hr'
      rcases List.mem_append.mp he with he | he
      · exact hdis e he r' (List.mem_cons_of_mem _ hr')
      · have he' : e = { r with score := r.score * alpha } := by simpa using he
        subst he'
        intro hEq
        exact (List.nodup_cons.mp hnd').1
          (hEq ▸ List.mem_map_of_mem (fun e => e.chunk_id) hr')
    calc rest.foldl (combineInsertSem alpha) (combineInsertSem alpha m r)
        = rest.foldl (combineInsertSem alpha)
            (m ++ [{ r with score := r.score * alpha }]) := by rw [hstep]
      _ = (m ++ [{ r with score := r.score * alpha }]) ++
            rest.map (fun r => { r with score := r.score * alpha }) :=
          ih _ hdis' (List.nodup_cons.mp hnd').2
      _ = m ++ (r :: rest).map (fun r => { r with score := r.score * alpha }) := by
          simp

theorem kwFold_find (alpha : ℚ) (kws : List SearchResultR) :
    ∀ (m : List SearchResultR) (id : Str),
    ((kws.map (fun e => e.chunk_id)).Nodup) →
    ((m.map (fun e => e.chunk_id)).Nodup) →
    (kws.foldl (combineInsertKw alpha) m).find? (fun e => e.chunk_id == id) =
      (match m.find? (fun e => e.chunk_id == id),
             kws.find? (fun e => e.chunk_id == id) with
       | some e, some k => some { e with
           score := e.score + k.score * (1 - alpha),
           relevance_type := "hybrid".toList }
       | none, some k => some { k with
           score := k.score * (1 - alpha),
           relevance_type := "keyword".toList }
       | some e, none => some e
       | none, none => none) := by
  induction kws with
  | nil =>
    intro m id _ _
    simp only [List.foldl_nil, List.find?_nil]
    cases m.find? (fun e => e.chunk_id == id) <;> rfl
  | cons k0 rest ih =>
    intro m id hndk hndm
    have hndk' : (k0.chunk_id :: rest.map (fun e => e.chunk_id)).Nodup := by
      simpa using hndk
    rw [List.foldl_cons]
    by_cases hc : (m.any (fun e => e.chunk_id == k0.chunk_id)) = true
    · have hm' : combineInsertKw alpha m k0 = m.map (fun e =>
          if e.chunk_id = k0.chunk_id then
            { e with score := e.score + k0.score * (1 - alpha),
                     relevance_type := "hybrid".toList }
          else e) := by
        simp [combineInsertKw, hc]
      set f := fun (e : SearchResultR) =>
          if e.chunk_id = k0.chunk_id then
            { e with score := e.score + k0.score * (1 - alpha),
                     relevance_type := "hybrid".toList }
          else e with hfdef
      have hpres : ∀ e, (f e).chunk_id = e.chunk_id := by
        intro e
        simp only [hfdef]
        split <;> rfl
      have hids : (m.map f).map (fun e => e.chunk_id) =
          m.map (fun e => e.chunk_id) := by
        rw [List.map_map]
        exact List.map_congr_left (fun a _ => hpres a)
      have hrec := ih (m.map f) id (List.nodup_cons.mp hndk').2
        (by rw [hids]; exact hndm)
      rw [hm', hrec, find?_map_presId m f hpres id]
      cases hb : (k0.chunk_id == id) with
      | true =>
        have hid : k0.chunk_id = id := by simpa using hb
        have hrest : rest.find? (fun e => e.chunk_id == id) = none := by
          rw [List.find?_eq_none]
          intro x hx
          simp only [beq_iff_eq]
          intro hEq
          exact (List.nodup_cons.mp hndk').1
            (by rw [hid]; exact hEq ▸ List.mem_map_of_mem (fun e => e.chunk_id) hx)
        cases hm : m.find? (fun e => e.chunk_id == id) with
        | some e =>
          have he : e.chunk_id = id := by simpa using List.find?_some hm
          have hfe : f e =
              { e with score := e.score + k0.score * (1 - alpha),
                       relevance_type := "hybrid".toList } := by
            simp only [hfdef]
            rw [if_pos (by rw [he, hid])]
          simp [List.find?, hb, hrest, hfe]
        | none =>
          exfalso
          rcases List.any_eq_true.mp hc with ⟨x, hx, hpx⟩
          rw [List.find?_eq_none] at hm
          exact hm x hx (by rw [← hid]; exact hpx)
      | false =>
        cases hm : m.find? (fun e => e.chunk_id == id) with
        | some e =>
          have he : e.chunk_id = id := by simpa using List.find?_some hm
          have hfe : f e = e := by
            simp only [hfdef]
            rw [if_neg (by
              rw [he]
              intro hEq
              exact (beq_eq_false_iff_ne.mp hb) hEq.symm)]
          simp [List.find?, hb, hfe]
        | none => simp [List.find?, hb]
    · have hcf : (m.any (fun e => e.chunk_id == k0.chunk_id)) = false := by
        simpa using hc
      have hnotin : ∀ e ∈ m, ¬ e.chunk_id = k0.chunk_id := by
        intro e he
        have := List.any_eq_false.mp hcf e he
        simpa using this
      have hm' : combineInsertKw alpha m k0 =
          m ++
            [{ k0 with score := k0.score * (1 - alpha),
                       relevance_type := "keyword".toList }] := by
        simp [combineInsertKw, hc]
      set k0' :=
        { k0 with score := k0.score * (1 - alpha),
                  relevance_type := "keyword".toList } with hk0'
      have hndm' : ((m ++ [k0']).map (fun e => e.chunk_id)).Nodup := by
        rw [List.map_append]
        refine List.Nodup.append hndm (by simp) ?_
        intro a ha hb
        simp only [List.map_cons, List.map_nil, List.mem_singleton] at hb
        rcases List.mem_map.mp ha with ⟨e, he, hrfl⟩
        exact hnotin e he (by rw [← hrfl] at hb; exact hb)
      have hrec := ih (m ++ [k0']) id (List.nodup_cons.mp hndk').2 hndm'
      rw [hm', hrec, List.find?_append]
      cases hb : (k0.chunk_id == id) with
      | true =>
        have hid : k0.chunk_id = id := by simpa using hb
        have hrest : rest.find? (fun e => e.chunk_id == id) = none := by
          rw [List.find?_eq_none]
          intro x hx
          simp only [beq_iff_eq]
          intro hEq
          exact (List.nodup_cons.mp hndk').1
            (by rw [hid]; exact hEq ▸ List.mem_map_of_mem (fun e => e.chunk_id) hx)
        cases hm : m.find? (fun e => e.chunk_id == id) with
        | some e =>
          exfalso
          have he : e.chunk_id = id := by simpa using List.find?_some hm
          exact hnotin e (List.mem_of_find?_eq_some hm) (by rw [he, hid])
        | none =>
          have hk0find : List.find? (fun e => e.chunk_id == id) [k0'] = some k0' :=
            List.find?_cons_of_pos _ (by simpa [hk0'] using hb)
          simp [List.find?, hb, hrest, hk0find, hm]
          exact hk0'
      | false =>
        have hk0find : List.find? (fun e => e.chunk_id == id) [k0'] = none := by
          rw [List.find?_eq_none]
          intro x hx
          simp only [List.mem_singleton] at hx
          subst hx
          simpa [hk0'] using hb
        rw [hk0find]
        simp [List.find?, hb]

/-- C1.  Score fusion: in `_combine_results`, for lists of semantic and
keyword results with distinct chunk ids per leg (tagged by the leg that
produced them, as `_semantic_search` and `_keyword_search` do), the
combined map holds, per chunk id: `score·α` tagged `semantic` for a
semantic-only hit, `score·(1−α)` tagged `keyword` for a keyword-only hit,
and `semantic·α + keyword·(1−α)` tagged `hybrid` for a chunk hit by both
legs. -/
theorem combine_results_fusion (semantic_results keyword_results : List SearchResultR)
    (alpha : ℚ)
    (hs : (semantic_results.map (fun e => e.chunk_id)).Nodup)
    (hk : (keyword_results.map (fun e => e.chunk_id)).Nodup)
    (hstag : ∀ r ∈ semantic_results, r.relevance_type = "semantic".toList)
    (hktag : ∀ r ∈ keyword_results, r.relevance_type = "keyword".toList) :
    (∀ r ∈ semantic_results,
      (∀ k ∈ keyword_results, ¬ k.chunk_id = r.chunk_id) →
      (combine_results semantic_results keyword_results alpha).find?
          (fun e => e.chunk_id == r.chunk_id) =
        some { r with score := r.score * alpha,
                      relevance_type := "semantic".toList }) ∧
    (∀ r ∈ keyword_results,
      (∀ sr ∈ semantic_results, ¬ sr.chunk_id = r.chunk_id) →
      (combine_results semantic_results keyword_results alpha).find?
          (fun e => e.chunk_id == r.chunk_id) =
        some { r with score := r.score * (1 - alpha),
                      relevance_type := "keyword".toList }) ∧
    (∀ sr ∈ semantic_results, ∀ kr ∈ keyword_results,
      sr.chunk_id = kr.chunk_id →
      (combine_results semantic_results keyword_results alpha).find?
          (fun e => e.chunk_id == sr.chunk_id) =
        some { sr with score := sr.score * alpha + kr.score * (1 - alpha),
                       relevance_type := "hybrid".toList }) := by
  have hout : combine_results semantic_results keyword_results alpha =
      keyword_results.foldl (combineInsertKw alpha)
        (semantic_results.map (fun r => { r with score := r.score * alpha })) := by
    unfold combine_results
    rw [semFold_eq alpha semantic_results []
      (by intro e he; exact absurd he (List.not_mem_nil e)) hs]
    simp
  have hidssem : ((semantic_results.map
        (fun r => { r with score := r.score * alpha })).map (fun e => e.chunk_id)) =
      semantic_results.map (fun e => e.chunk_id) := by
    rw [List.map_map]
    rfl
  have hndm : ((semantic_results.map
      (fun r => { r with score := r.score * alpha })).map (fun e => e.chunk_id)).Nodup := by
    rw [hidssem]
    exact hs
  refine ⟨?_, ?_, ?_⟩
  · intro r hr hnone
    rw [hout, kwFold_find alpha keyword_results _ r.chunk_id hk hndm]
    have hkfind : keyword_results.find? (fun e => e.chunk_id == r.chunk_id)
        = none := by
      rw [List.find?_eq_none]
      intro x hx
      simp only [beq_iff_eq]
      exact hnone x hx
    have hmfind : (semantic_results.map
          (fun r => { r with score := r.score * alpha })).find?
          (fun e => e.chunk_id == r.chunk_id) =
        some { r with score := r.score * alpha } :=
      find?_of_mem_nodupId _ _
        (List.mem_map_of_mem (fun r => { r with score := r.score * alpha }) hr) hndm
    rw [hkfind, hmfind]
    simp [hstag r hr]
  · intro r hr hnone
    rw [hout, kwFold_find alpha keyword_results _ r.chunk_id hk hndm]
    have hkfind : keyword_results.find? (fun e => e.chunk_id == r.chunk_id)
        = some r := find?_of_mem_nodupId _ _ hr hk
    have hmfind : (semantic_results.map
          (fun r => { r with score := r.score * alpha })).find?
          (fun e => e.chunk_id == r.chunk_id) = none := by
      rw [List.find?_eq_none]
      intro x hx
      simp only [beq_iff_eq]
      rcases List.mem_map.mp hx with ⟨e, he, hrfl⟩
      intro hEq
      apply hnone e he
      rw [← hrfl] at hEq
      exact hEq
    rw [hkfind, hmfind]
  · intro sr hsr kr hkr heq
    rw [hout, kwFold_find alpha keyword_results _ sr.chunk_id hk hndm]
    have hkfind : keyword_results.find? (fun e => e.chunk_id == sr.chunk_id)
        = some kr := by
      rw [heq]
      exact find?_of_mem_nodupId _ _ hkr hk
    have hmfind : (semantic_results.map
          (fun r => { r with score := r.score * alpha })).find?
          (fun e => e.chunk_id == sr.chunk_id) =
        some { sr with score := sr.score * alpha } :=
      find?_of_mem_nodupId _ _
        (List.mem_map_of_mem (fun r => { r with score := r.score * alpha }) hsr) hndm
    rw [hkfind, hmfind]

/-- Witness for C1: one semantic hit on chunk `x` and keyword hits on
`x` and `y`, fused with `α = 1/3`: `x` becomes hybrid with
`1/2·α + 1/4·(1−α)`, `y` stays keyword with `1·(1−α)`. -/
theorem combine_results_fusion_witness :
    (([srX].map (fun e => e.chunk_id)).Nodup ∧
     ([krX, krY].map (fun e => e.chunk_id)).Nodup ∧
     (∀ r ∈ [srX], r.relevance_type = "semantic".toList) ∧
     (∀ r ∈ [krX, krY], r.relevance_type = "keyword".toList) ∧
     srX.chunk_id = krX.chunk_id ∧
     (∀ sr ∈ [srX], ¬ sr.chunk_id = krY.chunk_id)) ∧
    (combine_results [srX] [krX, krY] (1/3)).find?
        (fun e => e.chunk_id == srX.chunk_id) =
      some { srX with score := srX.score * (1/3) + krX.score * (1 - 1/3),
                      relevance_type := "hybrid".toList } ∧
    (combine_results [srX] [krX, krY] (1/3)).find?
        (fun e => e.chunk_id == krY.chunk_id) =
      some { krY with score := krY.score * (1 - 1/3),
                      relevance_type := "keyword".toList } := by
  refine ⟨⟨by decide, by decide, by decide, by decide, by decide, by decide⟩, ?_, ?_⟩
  · exact (combine_results_fusion [srX] [krX, krY] (1/3) (by decide) (by decide)
      (by decide) (by decide)).2.2 srX (by simp) krX (by simp) (by decide)
  · exact (combine_results_fusion [srX] [krX, krY] (1/3) (by decide) (by decide)
      (by decide) (by decide)).2.1 krY (by simp) (by decide)
theorem wordsC_props (s : Str) : ∀ w ∈ wordsC s, w ≠ [] ∧ ∀ c ∈ w, isPyWs c = false := by
  induction s using wordsC.induct with
  | case1 => simp [wordsC]
  | case2 c rest hws ih =>
    rw [wordsC, if_pos hws]
    exact ih
  | case3 c rest hws ih =>
    rw [wordsC, if_neg hws]
    intro w hw
    rcases List.mem_cons.mp hw with h | h
    · subst h
      refine ⟨by simp, ?_⟩
      intro d hd
      rcases List.mem_cons.mp hd with h | h
      · subst h
        simpa using hws
      · have := List.mem_takeWhile_imp h
        simpa using this
    · exact ih w h
theorem wordsC_eq_nil (s : Str) (h : wordsC s = []) : ∀ c ∈ s, isPyWs c = true := by
  induction s using wordsC.induct with
  | case1 => simp
  | case2 c rest hws ih =>
    rw [wordsC, if_pos hws] at h
    intro d hd
    rcases List.mem_cons.mp hd with h' | h'
    · subst h'; exact hws
    · exact ih h d h'
  | case3 c rest hws ih =>
    rw [wordsC, if_neg hws] at h
    cases h

theorem all_ws_strip (s : Str) (h : ∀ c ∈ s, isPyWs c = true) : stripC s = [] := by
  unfold stripC
  have h1 : s.dropWhile isPyWs = [] := List.dropWhile_eq_nil_iff.mpr h
  simp [h1]

theorem wordsC_no_ws (w : Str) (hne : w ≠ []) (hok : ∀ c ∈ w, isPyWs c = false) :
    wordsC w = [w] := by
  cases w with
  | nil => exact absurd rfl hne
  | cons c rest =>
    rw [wordsC, if_neg (by simp [hok c (by simp)])]
    have ht : rest.takeWhile (fun d => ¬ isPyWs d) = rest := by
      rw [List.takeWhile_eq_self_iff]
      intro x hx
      simp [hok x (by simp [hx])]
    have hd : rest.dropWhile (fun d => ¬ isPyWs d) = [] := by
      rw [List.dropWhile_eq_nil_iff]
      intro x hx
      simp [hok x (by simp [hx])]
    rw [ht, hd]
    simp [wordsC]

theorem wordsC_append_ws (d : Char) (hd : isPyWs d = true) (b : Str) : ∀ a : Str,
    wordsC (a ++ d :: b) = wordsC a ++ wordsC b := by
  intro a
  induction a using wordsC.induct with
  | case1 => simp [wordsC, hd]
  | case2 c rest hws ih =>
    rw [List.cons_append, wordsC, if_pos hws, ih]
    conv_rhs => rw [wordsC, if_pos hws]
  | case3 c rest hws ih =>
    by_cases hall : ∀ x ∈ rest, ¬ isPyWs x = true
    · have ht1 : (rest ++ d :: b).takeWhile (fun d' => ¬ isPyWs d') =
          rest ++ (d :: b).takeWhile (fun d' => ¬ isPyWs d') :=
        List.takeWhile_append_of_pos (by intro x hx; simpa using hall x hx)
      have ht2 : (d :: b).takeWhile (fun d' => ¬ isPyWs d') = [] := by
        rw [List.takeWhile_cons, if_neg (by simp [hd])]
      have hd1 : (rest ++ d :: b).dropWhile (fun d' => ¬ isPyWs d') = d :: b :=
        by
          rw [List.dropWhile_append_of_pos (by intro x hx; simpa using hall x hx),
            List.dropWhile_cons, if_neg (by simp [hd])]
      rw [List.cons_append, wordsC, if_neg hws, ht1, ht2, hd1]
      conv_rhs => rw [wordsC, if_neg hws]
      have ht3 : rest.takeWhile (fun d' => ¬ isPyWs d') = rest := by
        rw [List.takeWhile_eq_self_iff]
        intro x hx
        simpa using hall x hx
      have hd3 : rest.dropWhile (fun d' => ¬ isPyWs d') = [] := by
        rw [List.dropWhile_eq_nil_iff]
        intro x hx
        simpa using hall x hx
      rw [ht3, hd3]
      simp [wordsC, hd]
    · have hdw : rest.dropWhile (fun d' => ¬ isPyWs d') ≠ [] := by
        rw [Ne, List.dropWhile_eq_nil_iff]
        intro hc
        apply hall
        intro x hx
        simpa using hc x hx
      have hlen : ¬ ((rest.takeWhile (fun d' => ¬ isPyWs d')).length = rest.length) := by
        intro hl
        have heq := ( List.takeWhile_prefix (l := rest)
          (p := fun d' => ¬ isPyWs d')).eq_of_length hl
        have := List.takeWhile_eq_self_iff.mp heq
        apply hall
        intro x hx
        simpa using this x hx
      rw [List.cons_append, wordsC, if_neg hws, List.takeWhile_append, if_neg hlen,
        List.dropWhile_append,
        if_neg (by simpa [List.isEmpty_iff] using hdw), ih]
      conv_rhs => rw [wordsC, if_neg hws]
      simp

theorem wordsC_join (ws : List Str)
    (h : ∀ w ∈ ws, w ≠ [] ∧ ∀ c ∈ w, isPyWs c = false) :
    wordsC (joinC [' '] ws) = ws := by
  induction ws with
  | nil => simp [joinC, wordsC]
  | cons x rest ih =>
    cases rest with
    | nil =>
      have hx := h x (by simp)
      simpa [joinC] using wordsC_no_ws x hx.1 hx.2
    | cons y rest' =>
      have hjoin : joinC [' '] (x :: y :: rest') =
          x ++ ' ' :: joinC [' '] (y :: rest') := by
        show x ++ [' '] ++ joinC [' '] (y :: rest') = _
        rw [List.append_assoc]
        rfl
      rw [hjoin, wordsC_append_ws ' ' (by decide) _ x,
        wordsC_no_ws x (h x (by simp)).1 (h x (by simp)).2,
        ih (fun w hw => h w (List.mem_cons_of_mem _ hw))]
      rfl
theorem chunkWindowLoop_spec (words : List Str) (maxc overlap : Nat)
    (hov : overlap < maxc) :
    ∀ fuel start, words.length - start < fuel →
    ∃ l, chunkWindowLoop words maxc overlap start fuel = some l ∧
      (start < words.length → l ≠ []) ∧
      ∀ c ∈ l, ∃ sl : List Str, c = joinC [' '] sl ∧ sl.length ≤ maxc ∧
        ∀ w ∈ sl, w ∈ words := by
  intro fuel
  induction fuel with
  | zero => intro start h; omega
  | succ fuel ih =>
    intro start h
    by_cases hs : start < words.length
    · have hrec := ih (if min (start + maxc) words.length < words.length
          then min (start + maxc) words.length - overlap
          else min (start + maxc) words.length) (by
        split
        · rename_i hlt
          have he : min (start + maxc) words.length = start + maxc := by omega
          rw [he] at hlt ⊢
          omega
        · rename_i hge
          omega)
      obtain ⟨l, hl, _, hprop⟩ := hrec
      refine ⟨joinC [' ']
          ((words.drop start).take (min (start + maxc) words.length - start)) :: l,
        ?_, by simp, ?_⟩
      · rw [chunkWindowLoop, if_pos hs]
        simp only []
        rw [hl]
      · intro c hc
        rcases List.mem_cons.mp hc with hc | hc
        · refine ⟨(words.drop start).take (min (start + maxc) words.length - start),
            hc, ?_, ?_⟩
          · calc ((words.drop start).take (min (start + maxc) words.length - start)).length
                ≤ min (start + maxc) words.length - start := List.length_take_le _ _
              _ ≤ maxc := by omega
          · intro w hw
            exact List.drop_subset start words (List.take_subset _ _ hw)
        · exact hprop c hc
    · refine ⟨[], ?_, by intro h'; exact absurd h' hs, by simp⟩
      rw [chunkWindowLoop, if_neg hs]

/-- C10 (amended).  Windowing termination: for text with at least one
non-whitespace character (so with at least one word) and
`overlap < max_chunk_size`, `_chunk_text_by_words` terminates and returns
a non-empty chunk list whose every element holds at most
`max_chunk_size` words.  (For whitespace-only non-empty text the function
returns an empty list — see the counterexample.) -/
theorem chunk_text_by_words_spec (text : Str) (maxc overlap : Nat)
    (htext : ¬ stripC text = []) (hov : overlap < maxc) :
    ∃ l, chunk_text_by_words text maxc overlap = some l ∧ ¬ l = [] ∧
      ∀ c ∈ l, (wordsC c).length ≤ maxc := by
  unfold chunk_text_by_words
  rw [if_neg htext]
  by_cases hlen : (wordsC text).length ≤ maxc
  · refine ⟨[text], by simp [hlen], by simp, ?_⟩
    intro c hc
    simp only [List.mem_singleton] at hc
    subst hc
    exact hlen
  · have hwne : wordsC text ≠ [] := by
      intro hnil
      exact htext (all_ws_strip text (wordsC_eq_nil text hnil))
    obtain ⟨l, hl, hne, hprop⟩ := chunkWindowLoop_spec (wordsC text) maxc overlap
      hov ((wordsC text).length + 1) 0 (by omega)
    refine ⟨l, by simp [hlen, hl], ?_, ?_⟩
    · exact hne (List.length_pos.mpr hwne)
    · intro c hc
      obtain ⟨sl, hcs, hsl_len, hsl_mem⟩ := hprop c hc
      subst hcs
      rw [wordsC_join sl (fun w hw => wordsC_props text w (hsl_mem w hw))]
      exact hsl_len

/-- C10 counterexample.  The text `" "` is non-empty and `0 ≤ 1 < 5`, yet
`_chunk_text_by_words` returns an empty chunk list (the `not text.strip()`
guard fires), so "non-empty text returns a non-empty chunk list" is false
as stated. -/
theorem chunk_text_by_words_ws_counterexample :
    ([' '] : Str) ≠ [] ∧ chunk_text_by_words [' '] 5 1 = some [] := by
  decide

/-- Witness for C10 (amended): the text `a b c` (three words) windowed
with `max_chunk_size = 2`, `overlap = 1`. -/
theorem chunk_text_by_words_spec_witness :
    (¬ stripC "a b c".toList = [] ∧ 1 < 2) ∧
    (∃ l, chunk_text_by_words "a b c".toList 2 1 = some l ∧ ¬ l = [] ∧
      ∀ c ∈ l, (wordsC c).length ≤ 2) :=
  ⟨⟨by decide, by decide⟩,
    chunk_text_by_words_spec "a b c".toList 2 1 (by decide) (by decide)⟩

/-! ## C7: small-tier chunk coverage -/

theorem strip_nil_all_ws (s : Str) (h : stripC s = []) :
    ∀ c ∈ s, isPyWs c = true := by
  unfold stripC at h
  rw [List.reverse_eq_nil_iff, List.dropWhile_eq_nil_iff] at h
  have hdrop : ∀ c ∈ s.dropWhile isPyWs, isPyWs c = true := by
    intro c hc
    exact h c (List.mem_reverse.mpr hc)
  intro c hc
  rw [← List.takeWhile_append_dropWhile (p := isPyWs) (l := s)] at hc
  rcases List.mem_append.mp hc with hc | hc
  · exact List.mem_takeWhile_imp hc
  · exact hdrop c hc

theorem all_ws_wordsC (s : Str) (h : ∀ c ∈ s, isPyWs c = true) :
    wordsC s = [] := by
  induction s using wordsC.induct with
  | case1 => simp [wordsC]
  | case2 c rest hws ih =>
    rw [wordsC, if_pos hws]
    exact ih (fun d hd => h d (List.mem_cons_of_mem _ hd))
  | case3 c rest hws ih =>
    exact absurd (h c (List.mem_cons_self _ _)) hws

theorem joinC_append_single (sep : Str) (xs : List Str) (l : Str)
    (hne : xs ≠ []) :
    joinC sep (xs ++ [l]) = joinC sep xs ++ sep ++ l := by
  induction xs with
  | nil => exact absurd rfl hne
  | cons x rest ih =>
    cases rest with
    | nil => rfl
    | cons y rest' =>
      have h1 : joinC sep ((x :: y :: rest') ++ [l]) =
          x ++ sep ++ joinC sep ((y :: rest') ++ [l]) := rfl
      rw [h1, ih (by simp)]
      show _ = (x ++ sep ++ joinC sep (y :: rest')) ++ sep ++ l
      simp [List.append_assoc]

theorem wordsC_joinC_nl (xs : List Str) :
    wordsC (joinC ['\n'] xs) = xs.flatMap wordsC := by
  induction xs with
  | nil => simp [joinC, wordsC]
  | cons x rest ih =>
    cases rest with
    | nil => simp [joinC]
    | cons y rest' =>
      have hjoin : joinC ['\n'] (x :: y :: rest') =
          x ++ '\n' :: joinC ['\n'] (y :: rest') := by
        show x ++ ['\n'] ++ joinC ['\n'] (y :: rest') = _
        rw [List.append_assoc]
        rfl
      rw [hjoin, wordsC_append_ws '\n' (by decide) _ x, ih]
      rfl

theorem extract_fold_no_header (cfg : ChunkerConfig) (ps : List (Nat × Str))
    (h : ∀ p ∈ ps, ¬ cfg.isHeader p.2) :
    ps.foldl (extract_step cfg) ([], none, []) = ([], none, []) := by
  induction ps with
  | nil => rfl
  | cons p rest ih =>
    rw [List.foldl_cons]
    have hstep : extract_step cfg ([], none, []) p = ([], none, []) := by
      simp [extract_step, h p (List.mem_cons_self _ _)]
    rw [hstep]
    exact ih (fun q hq => h q (List.mem_cons_of_mem _ hq))

theorem extract_fold_invariant (cfg : ChunkerConfig) :
    ∀ (ps : List (Nat × Str)) (secs : List DocSection)
      (cur : Option (Str × Nat)) (curC : List Str),
    (cur = none → secs = [] ∧ curC = []) →
    (cur ≠ none → curC ≠ []) →
    (((ps.foldl (extract_step cfg) (secs, cur, curC)).2.1 = none →
        ps.foldl (extract_step cfg) (secs, cur, curC) = (secs, cur, curC) ∧
        ∀ p ∈ ps, ¬ cfg.isHeader p.2) ∧
     ((ps.foldl (extract_step cfg) (secs, cur, curC)).2.1 ≠ none →
        (ps.foldl (extract_step cfg) (secs, cur, curC)).2.2 ≠ [] ∧
        unpackWords (ps.foldl (extract_step cfg) (secs, cur, curC)) =
          unpackWords (secs, cur, curC) ++
          (match cur with
           | none => ((ps.map (fun p => p.2)).dropWhile
               (fun l => ¬ cfg.isHeader l)).flatMap wordsC
           | some _ => (ps.map (fun p => p.2)).flatMap wordsC))) := by
  intro ps
  induction ps with
  | nil =>
    intro secs cur curC h1 h2
    constructor
    · intro _
      exact ⟨rfl, by simp⟩
    · intro hne
      refine ⟨h2 hne, ?_⟩
      cases cur with
      | none => exact absurd rfl hne
      | some v => simp
  | cons p rest ih =>
    intro secs cur curC h1 h2
    rw [List.foldl_cons]
    by_cases hhd : cfg.isHeader p.2 = true
    · cases cur with
      | none =>
        obtain ⟨hsecs, hcurC⟩ := h1 rfl
        subst hsecs hcurC
        have hstep : extract_step cfg ([], none, []) p =
            ([], some (stripC p.2, p.1), [p.2]) := by
          simp [extract_step, hhd]
        rw [hstep]
        obtain ⟨ihn, ihs⟩ := ih [] (some (stripC p.2, p.1)) [p.2]
          (by intro hc; cases hc) (by intro _; simp)
        constructor
        · intro hnone
          obtain ⟨heq, _⟩ := ihn hnone
          rw [heq] at hnone
          cases hnone
        · intro hne
          obtain ⟨hnn, hun⟩ := ihs hne
          refine ⟨hnn, ?_⟩
          rw [hun]
          simp [unpackWords, joinC, List.dropWhile_cons, hhd]
      | some hv =>
        obtain ⟨h0, sl0⟩ := hv
        have hstep : extract_step cfg (secs, some (h0, sl0), curC) p =
            (secs ++ [⟨h0, joinC ['\n'] curC, sl0, p.1 - 1⟩],
             some (stripC p.2, p.1), [p.2]) := by
          simp [extract_step, hhd]
        rw [hstep]
        obtain ⟨ihn, ihs⟩ := ih
          (secs ++ [⟨h0, joinC ['\n'] curC, sl0, p.1 - 1⟩])
          (some (stripC p.2, p.1)) [p.2]
          (by intro hc; cases hc) (by intro _; simp)
        constructor
        · intro hnone
          obtain ⟨heq, _⟩ := ihn hnone
          rw [heq] at hnone
          cases hnone
        · intro hne
          obtain ⟨hnn, hun⟩ := ihs hne
          refine ⟨hnn, ?_⟩
          rw [hun]
          simp [unpackWords, joinC, List.flatMap_append, List.append_assoc]
    · cases cur with
      | none =>
        obtain ⟨hsecs, hcurC⟩ := h1 rfl
        subst hsecs hcurC
        have hstep : extract_step cfg ([], none, []) p = ([], none, []) := by
          simp [extract_step, hhd]
        rw [hstep]
        obtain ⟨ihn, ihs⟩ := ih [] none []
          (by intro _; exact ⟨rfl, rfl⟩) (by intro hc; exact absurd rfl hc)
        constructor
        · intro hnone
          obtain ⟨heq, hall⟩ := ihn hnone
          refine ⟨heq, ?_⟩
          intro q hq
          rcases List.mem_cons.mp hq with hq | hq
          · subst hq
            exact hhd
          · exact hall q hq
        · intro hne
          obtain ⟨hnn, hun⟩ := ihs hne
          refine ⟨hnn, ?_⟩
          rw [hun]
          simp [List.dropWhile_cons, hhd]
      | some hv =>
        have hcne : curC ≠ [] := h2 (by simp)
        have hstep : extract_step cfg (secs, some hv, curC) p =
            (secs, some hv, curC ++ [p.2]) := by
          obtain ⟨h0, sl0⟩ := hv
          simp [extract_step, hhd]
        rw [hstep]
        obtain ⟨ihn, ihs⟩ := ih secs (some hv) (curC ++ [p.2])
          (by intro hc; cases hc) (by intro _; simp)
        constructor
        · intro hnone
          obtain ⟨heq, _⟩ := ihn hnone
          rw [heq] at hnone
          cases hnone
        · intro hne
          obtain ⟨hnn, hun⟩ := ihs hne
          refine ⟨hnn, ?_⟩
          rw [hun]
          have hjoin : joinC ['\n'] (curC ++ [p.2]) =
              joinC ['\n'] curC ++ '\n' :: p.2 := by
            rw [joinC_append_single ['\n'] curC p.2 hcne, List.append_assoc]
            rfl
          simp [unpackWords, hjoin, wordsC_append_ws '\n' (by decide),
            List.append_assoc]

theorem snd_mem_of_mem_enum {α : Type} {l : List α} {p : Nat × α}
    (hp : p ∈ l.enum) : p.2 ∈ l := by
  rw [List.enum_eq_zip_range] at hp
  exact (List.of_mem_zip hp).2

theorem extract_sections_no_header (cfg : ChunkerConfig) (content : Str)
    (h : ∀ l ∈ splitLinesC content, ¬ cfg.isHeader l) :
    extract_sections cfg content = [] := by
  have hfold : (splitLinesC content).enum.foldl (extract_step cfg)
      ([], none, []) = ([], none, []) :=
    extract_fold_no_header cfg _ (fun p hp => h p.2 (snd_mem_of_mem_enum hp))
  simp only [extract_sections, hfold]

theorem extract_sections_flat_words (cfg : ChunkerConfig) (content : Str)
    (hsome : ¬ ∀ l ∈ splitLinesC content, ¬ cfg.isHeader l) :
    extract_sections cfg content ≠ [] ∧
    (extract_sections cfg content).flatMap (fun s => wordsC s.content) =
      ((splitLinesC content).dropWhile (fun l => ¬ cfg.isHeader l)).flatMap
        wordsC := by
  obtain ⟨inv1, inv2⟩ := extract_fold_invariant cfg
    (splitLinesC content).enum [] none []
    (fun _ => ⟨rfl, rfl⟩) (fun hc => absurd rfl hc)
  rcases hst : (splitLinesC content).enum.foldl (extract_step cfg)
      ([], none, []) with ⟨secs', cur', curC'⟩
  rw [hst] at inv1 inv2
  cases cur' with
  | none =>
    exfalso
    obtain ⟨_, hall⟩ := inv1 rfl
    apply hsome
    intro l hl
    have hl' : l ∈ (splitLinesC content).enum.map (fun p => p.2) := by
      rw [List.enum_map_snd]
      exact hl
    rcases List.mem_map.mp hl' with ⟨q, hq, hrfl⟩
    rw [← hrfl]
    exact hall q hq
  | some hv =>
    obtain ⟨hcne, hun⟩ := inv2 (by simp)
    obtain ⟨h0, sl0⟩ := hv
    have hsec : extract_sections cfg content =
        secs' ++ [⟨h0, joinC ['\n'] curC', sl0,
          (splitLinesC content).length - 1⟩] := by
      simp only [extract_sections, hst]
    constructor
    · rw [hsec]
      simp
    · rw [hsec]
      have hlhs : (secs' ++ [(⟨h0, joinC ['\n'] curC', sl0,
          (splitLinesC content).length - 1⟩ : DocSection)]).flatMap
            (fun s => wordsC s.content) =
          unpackWords (secs', some (h0, sl0), curC') := by
        simp [unpackWords, List.flatMap_append]
      rw [hlhs, hun]
      simp only [unpackWords, List.flatMap_nil, List.nil_append]
      rw [List.enum_map_snd]

theorem sectionLoop_words (cfg : ChunkerConfig) (doc : Document)
    (sections : List DocSection)
    (hfits : ∀ sec ∈ sections, (wordsC sec.content).length ≤ cfg.chunk_size) :
    ∃ chunks, sectionLoop cfg doc sections = some chunks ∧
      (chunks.map (fun c => c.content)).flatMap wordsC =
        sections.flatMap (fun s => wordsC s.content) := by
  induction sections with
  | nil => exact ⟨[], rfl, rfl⟩
  | cons sec rest ih =>
    obtain ⟨more, hmore, hwords⟩ :=
      ih (fun s hs => hfits s (List.mem_cons_of_mem _ hs))
    by_cases hstrip : stripC sec.content = []
    · have htext : chunk_text cfg sec.content = some [] := by
        simp [chunk_text, chunk_text_by_words, hstrip]
      refine ⟨section_chunk_list cfg doc sec [] ++ more, ?_, ?_⟩
      · rw [sectionLoop, htext, hmore]
      · have hcw : wordsC sec.content = [] :=
          all_ws_wordsC _ (strip_nil_all_ws _ hstrip)
        simp [section_chunk_list, hwords, hcw]
    · have htext : chunk_text cfg sec.content = some [sec.content] := by
        simp [chunk_text, chunk_text_by_words, hstrip,
          hfits sec (List.mem_cons_self _ _)]
      refine ⟨section_chunk_list cfg doc sec [sec.content] ++ more, ?_, ?_⟩
      · rw [sectionLoop, htext, hmore]
      · simp [section_chunk_list, create_chunk, hwords, List.enum]

/-- C7 (amended).  Small-tier coverage from the first section header: for
a small-tier document whose sections each fit in one window, joining the
chunk contents (with a line break between chunks) reproduces, up to
whitespace normalization (equal word sequences), the document content
from the first section-header line onward — the entire content when no
line matches the header pattern.  Text before the first section header is
dropped by `_extract_sections` (see the counterexample). -/
theorem chunk_small_file_coverage (cfg : ChunkerConfig) (path content : Str)
    (hsmall : (categorize_document cfg content).1 = .green)
    (hfits : ∀ sec ∈ extract_sections cfg content,
      (wordsC sec.content).length ≤ cfg.chunk_size)
    (hwhole : extract_sections cfg content = [] →
      (wordsC content).length ≤ cfg.chunk_size) :
    ∃ chunks, chunk_document cfg path content = some chunks ∧
      wordsC (joinC ['\n'] (chunks.map (fun c => c.content))) =
      wordsC (contentFromFirstHeader cfg content) := by
  have hdoc : chunk_document cfg path content =
      chunk_small_file cfg
        ⟨path, content, .green, (categorize_document cfg content).2⟩ := by
    simp only [chunk_document]
    rw [hsmall]
  by_cases hall : ∀ l ∈ splitLinesC content, ¬ cfg.isHeader l
  · have hsec : extract_sections cfg content = [] :=
      extract_sections_no_header cfg content hall
    have hcff : contentFromFirstHeader cfg content = content := by
      unfold contentFromFirstHeader
      rw [if_pos (by simpa [List.all_eq_true] using hall)]
    by_cases hstrip : stripC content = []
    · have htext : chunk_text cfg content = some [] := by
        simp [chunk_text, chunk_text_by_words, hstrip]
      refine ⟨[], ?_, ?_⟩
      · rw [hdoc]
        simp [chunk_small_file, hsec, htext]
      · rw [hcff]
        have hw : wordsC content = [] :=
          all_ws_wordsC _ (strip_nil_all_ws _ hstrip)
        simp [joinC, wordsC, hw]
    · have hlen := hwhole hsec
      have htext : chunk_text cfg content = some [content] := by
        simp [chunk_text, chunk_text_by_words, hstrip, hlen]
      refine ⟨[create_chunk cfg
          ⟨path, content, .green, (categorize_document cfg content).2⟩ content
          ( "Content Part ".toList ++ natToChars (0 + 1)) 0
          (categorize_document cfg content).2], ?_, ?_⟩
      · rw [hdoc]
        simp [chunk_small_file, hsec, htext, List.enum]
      · rw [hcff]
        simp [create_chunk, joinC]
  · obtain ⟨hne, hwords⟩ := extract_sections_flat_words cfg content hall
    have hcff : contentFromFirstHeader cfg content =
        joinC ['\n'] ((splitLinesC content).dropWhile
          (fun l => ¬ cfg.isHeader l)) := by
      unfold contentFromFirstHeader
      rw [if_neg (by simpa [List.all_eq_true] using hall)]
    obtain ⟨chunks, hloop, hcw⟩ := sectionLoop_words cfg
      ⟨path, content, .green, (categorize_document cfg content).2⟩
      (extract_sections cfg content) hfits
    refine ⟨chunks, ?_, ?_⟩
    · rw [hdoc]
      simp only [chunk_small_file]
      rw [if_neg (by simpa [List.isEmpty_iff] using hne)]
      exact hloop
    · rw [hcff, wordsC_joinC_nl, wordsC_joinC_nl, hcw, hwords]

/-- C7 counterexample.  The document `intro\n## A\nbody` is small tier,
but the text `intro` before the first section header is dropped: the
single chunk produced is `## A\nbody`, whose words do not reproduce the
document's words under whitespace normalization. -/
theorem chunk_small_coverage_counterexample :
    (categorize_document cfgEx cexDoc).1 = .green ∧
    ¬ ((chunk_document cfgEx "test.md".toList cexDoc).map
        (fun cs => wordsC (joinC ['\n'] (cs.map (fun c => c.content)))) =
      some (wordsC cexDoc)) := by
  have hsec : extract_sections cfgEx cexDoc =
      [⟨"## A".toList, cexSec, 1, 2⟩] := by decide
  have hw1 : wordsC cexSec = ["##".toList, "A".toList, "body".toList] := by
    simp [cexSec, wordsC, isPyWs]
  have hw2 : wordsC cexDoc =
      ["intro".toList, "##".toList, "A".toList, "body".toList] := by
    simp [cexDoc, wordsC, isPyWs]
  have hcat : categorize_document cfgEx cexDoc = (.green, 3) := by decide
  have htext : chunk_text cfgEx cexSec = some [cexSec] := by
    unfold chunk_text chunk_text_by_words
    rw [if_neg (show ¬ stripC cexSec = [] from by decide)]
    simp only [hw1]
    decide
  have h1 : chunk_document cfgEx "test.md".toList cexDoc =
      chunk_small_file cfgEx ⟨"test.md".toList, cexDoc, .green, 3⟩ := by
    simp only [chunk_document, hcat]
  have h2 : chunk_small_file cfgEx ⟨"test.md".toList, cexDoc, .green, 3⟩ =
      sectionLoop cfgEx ⟨"test.md".toList, cexDoc, .green, 3⟩
        [⟨"## A".toList, cexSec, 1, 2⟩] := by
    simp only [chunk_small_file]
    rw [hsec]
    rw [if_neg (show ¬ ([(⟨"## A".toList, cexSec, 1, 2⟩ : DocSection)]).isEmpty
        = true from by decide)]
  have h3 : sectionLoop cfgEx ⟨"test.md".toList, cexDoc, .green, 3⟩
        [⟨"## A".toList, cexSec, 1, 2⟩] =
      some (section_chunk_list cfgEx ⟨"test.md".toList, cexDoc, .green, 3⟩
        ⟨"## A".toList, cexSec, 1, 2⟩ [cexSec]) := by
    simp only [sectionLoop, htext]
    simp
  have h4 : section_chunk_list cfgEx ⟨"test.md".toList, cexDoc, .green, 3⟩
        ⟨"## A".toList, cexSec, 1, 2⟩ [cexSec] =
      [create_chunk cfgEx ⟨"test.md".toList, cexDoc, .green, 3⟩ cexSec
        "## A".toList 1 2] := by
    decide
  refine ⟨by decide, ?_⟩
  intro hcontra
  rw [h1, h2, h3, h4] at hcontra
  simp only [Option.map_some', Option.some.injEq] at hcontra
  rw [show ([create_chunk cfgEx ⟨"test.md".toList, cexDoc, .green, 3⟩ cexSec
      "## A".toList 1 2].map (fun c => c.content)) = [cexSec] from rfl] at hcontra
  rw [show joinC ['\n'] [cexSec] = cexSec from rfl, hw1, hw2] at hcontra
  exact absurd hcontra (by decide)

/-- Witness for C7 (amended): the small-tier document
`## A\nbody\n## B\nmore text` is fully reproduced from its first header
(which is its first line). -/
theorem chunk_small_file_coverage_witness :
    ((categorize_document cfgEx witDoc).1 = .green ∧
     (∀ sec ∈ extract_sections cfgEx witDoc,
        (wordsC sec.content).length ≤ cfgEx.chunk_size) ∧
     (extract_sections cfgEx witDoc = [] →
        (wordsC witDoc).length ≤ cfgEx.chunk_size)) ∧
    (∃ chunks, chunk_document cfgEx "test.md".toList witDoc = some chunks ∧
      wordsC (joinC ['\n'] (chunks.map (fun c => c.content))) =
      wordsC (contentFromFirstHeader cfgEx witDoc)) := by
  have hsecw : extract_sections cfgEx witDoc =
      [⟨"## A".toList, "## A\nbody".toList, 0, 1⟩,
       ⟨"## B".toList, "## B\nmore text".toList, 2, 3⟩] := by decide
  have hfits : ∀ sec ∈ extract_sections cfgEx witDoc,
      (wordsC sec.content).length ≤ cfgEx.chunk_size := by
    rw [hsecw]
    intro sec hs
    rcases List.mem_cons.mp hs with rfl | hs
    · show (wordsC "## A\nbody".toList).length ≤ cfgEx.chunk_size
      simp [wordsC, isPyWs, cfgEx]
    · rcases List.mem_cons.mp hs with rfl | hs
      · show (wordsC "## B\nmore text".toList).length ≤ cfgEx.chunk_size
        simp [wordsC, isPyWs, cfgEx]
      · cases hs
  have hempty : extract_sections cfgEx witDoc = [] →
      (wordsC witDoc).length ≤ cfgEx.chunk_size := by
    intro h
    rw [hsecw] at h
    cases h
  exact ⟨⟨by decide, hfits, hempty⟩,
    chunk_small_file_coverage cfgEx "test.md".toList witDoc (by decide)
      hfits hempty⟩
